import Mathlib

/-!
# Verification of the nameport repository's specification

A shallow embedding, in Lean 4, of the parts of the `nameport` Go code base
that the specification's claims are about:

* `internal/tls/policy/policy.go` — the domain policy (`ValidateDomain`,
  `ValidateWildcard`) and the leaf issuer (`Issue`, `GetCertificate`);
* `internal/storage/store.go` and `internal/storage/blacklist.go` — the
  service store, the blacklist store and their persistence behaviour;
* `internal/naming/names.go` — name sanitisation, collision resolution and
  the hash fallback;
* the CA package (`NewCA`, `Init`, `IsInitialized`).

Modelling conventions:

* Go strings become Lean `String`s.  The Go `strings` functions are
  re-implemented over `List Char` with structural recursion (`goTrim`,
  `goToLower`, `goStartsWith`, …) so that the kernel can evaluate them;
  `ToLower` and `TrimSpace` are modelled on ASCII, which covers every
  string the embedded code compares against.
* Go `map[string]T` values become either Lean functions `String → Bool`
  (the generator's used-name set) or association lists with unique keys
  (the stores), matching insert-or-replace / delete semantics.
* `time.Time` values become integers (seconds); `time.Duration` likewise.
* Fallible effects that are outside the program text (ECDSA key generation,
  X.509 signing, `crypto/rand`) are supplied as explicit inputs, and the
  points at which the code would perform them are recorded in an effect
  trace, so that "returns before generating any key pair" is a statement
  about the trace.
* File-system writes are modelled as a list of file operations applied to a
  map from paths to contents, with a crash semantics that can stop a write
  midway (leaving a prefix of the data), so that atomicity is a statement
  about the reachable intermediate states.
-/

namespace Nameport

instance {ε α : Type _} [DecidableEq ε] [DecidableEq α] :
    DecidableEq (Except ε α)
  | .ok x, .ok y =>
    if h : x = y then .isTrue (congrArg Except.ok h)
    else .isFalse fun hh => h (Except.ok.inj hh)
  | .error e, .error f =>
    if h : e = f then .isTrue (congrArg Except.error h)
    else .isFalse fun hh => h (Except.error.inj hh)
  | .ok _, .error _ => .isFalse fun hh => Except.noConfusion hh
  | .error _, .ok _ => .isFalse fun hh => Except.noConfusion hh

/-! ## Go string helpers

Implemented over `List Char` with structural recursion so that every
definition evaluates inside the kernel (`decide` / `rfl`).  The Lean core
`String` functions use byte positions and well-founded recursion and do
not reduce definitionally. -/

/-- `hasPfx p l` is true iff the char list `p` is a prefix of `l`. -/
def hasPfx : List Char → List Char → Bool
  | [], _ => true
  | _ :: _, [] => false
  | a :: as, b :: bs => a = b && hasPfx as bs

/-- Go `strings.HasPrefix s p`. -/
def goStartsWith (s p : String) : Bool := hasPfx p.data s.data

/-- Go `strings.HasSuffix s p`. -/
def goEndsWith (s p : String) : Bool := hasPfx p.data.reverse s.data.reverse

/-- Go `strings.ToLower`, restricted to ASCII (all names the policy and the
naming engine compare against are ASCII). -/
def goToLower (s : String) : String := ⟨s.data.map Char.toLower⟩

/-- Go `strings.TrimSpace` (ASCII whitespace). -/
def goTrim (s : String) : String :=
  ⟨((s.data.dropWhile Char.isWhitespace).reverse.dropWhile
      Char.isWhitespace).reverse⟩

/-- Go `strings.TrimSuffix s suffix`. -/
def goTrimSuffix (s suffix : String) : String :=
  if goEndsWith s suffix then
    ⟨s.data.take (s.data.length - suffix.data.length)⟩
  else s

/-- Go `s[n:]` on an ASCII prefix (drop `n` characters). -/
def goDrop (s : String) (n : Nat) : String := ⟨s.data.drop n⟩

/-- Go `s[:n]` on an ASCII string (take `n` characters). -/
def goTake (s : String) (n : Nat) : String := ⟨s.data.take n⟩

/-- Go `strings.Contains s (string c)` for a single character `c`. -/
def goContainsChar (s : String) (c : Char) : Bool := s.data.any (· = c)

/-- Splitting a char list at every occurrence of `c`; the branches mirror
Go `strings.Split` with a one-character separator. -/
def splitOnChar (c : Char) : List Char → List (List Char)
  | [] => [[]]
  | x :: xs =>
    match splitOnChar c xs with
    | [] => [[]]
    | h :: t => if x = c then [] :: h :: t else (x :: h) :: t

/-- Go `strings.Split s "."`. -/
def goSplitDots (s : String) : List String :=
  (splitOnChar '.' s.data).map fun l => ⟨l⟩

/-! ## Domain policy (`internal/tls/policy/policy.go`) -/

/-- The hardcoded allowed TLDs of `NewPolicy` (`policy.go`), stored with a
leading dot. -/
def allowedTLDs : List String :=
  [".localhost", ".test", ".localdev", ".internal", ".home.arpa"]

/-- Processing of the embedded `tlds.txt` lines performed by `NewPolicy`:
trim each line, skip blanks and `#` comments, store lowercased with a
leading dot. -/
def mkBlockedTLDs (lines : List String) : List String :=
  lines.filterMap fun l =>
    let t := goTrim l
    if t = "" || goStartsWith t "#" then none
    else some ("." ++ goToLower t)

/-- Modelled from the spec: the embedded IANA snapshot `tlds.txt` is not
among the provided sources; the spec says the block set is "loaded from an
embedded snapshot of the IANA TLD list" and the policy tests assert that at
least these common entries are present.  This sample stands in for the full
list wherever a concrete block set is needed; every general theorem is
quantified over an arbitrary block set instead. -/
def sampleBlockedTLDs : List String :=
  mkBlockedTLDs ["com", "net", "org", "io", "dev", "app", "uk", "de", "fr",
    "jp", "xyz", "co.uk"]

/-- `Policy.matchesAllowed` (`policy.go` lines 120-127): the domain equals an
allowed TLD without its leading dot, or ends with the dotted TLD. -/
def matchesAllowed (domain : String) : Bool :=
  allowedTLDs.any fun tld => domain == goDrop tld 1 || goEndsWith domain tld

/-- `Policy.matchesBlocked` (`policy.go` lines 130-137), over a given block
set (entries carry their leading dot, as built by `NewPolicy`). -/
def matchesBlocked (blocked : List String) (domain : String) : Bool :=
  blocked.any fun tld => domain == goDrop tld 1 || goEndsWith domain tld

/-- The three distinct errors `Policy.ValidateDomain` can produce. -/
inductive DomainErr : Type
  | emptyDomain
  | blockedTLD
  | notAllowed
  deriving DecidableEq, Repr

/-- The normalisation `ValidateDomain` and `ValidateWildcard` apply first:
`strings.ToLower(strings.TrimSuffix(strings.TrimSpace(d), "."))`. -/
def normalizeDomain (d : String) : String :=
  goToLower (goTrimSuffix (goTrim d) ".")

/-- `Policy.ValidateDomain` (`policy.go` lines 55-72). -/
def validateDomain (blocked : List String) (domain : String) :
    Except DomainErr Unit :=
  let d := normalizeDomain domain
  if d = "" then .error .emptyDomain
  else if matchesAllowed d then .ok ()
  else if matchesBlocked blocked d then .error .blockedTLD
  else .error .notAllowed

/-- The distinct errors `Policy.ValidateWildcard` can produce. -/
inductive WildcardErr : Type
  | emptyPattern
  | notLeftmost
  | multipleWildcards
  | domainErr (e : DomainErr)
  | depth
  deriving DecidableEq, Repr

/-- `Policy.endsWithMultiLabelTLD` (`policy.go` lines 141-144). -/
def endsWithMultiLabelTLD (domain : String) : Bool :=
  goEndsWith domain ".home.arpa" || domain == "home.arpa"

/-- The label-depth check at the end of `ValidateWildcard` (`policy.go`
lines 101-114): `rest` needs at least 2 labels, or 3 below a multi-label
TLD. -/
def wildcardDepthCheck (rest : String) : Except WildcardErr Unit :=
  let labels := goSplitDots rest
  if endsWithMultiLabelTLD rest then
    if labels.length < 3 then .error .depth else .ok ()
  else
    if labels.length < 2 then .error .depth else .ok ()

/-- Propagation of the `ValidateDomain` result inside `ValidateWildcard`
(`policy.go` lines 97-99): a domain error is wrapped, success falls
through to the depth check. -/
def wildcardDomainStep (rest : String) :
    Except DomainErr Unit → Except WildcardErr Unit
  | .error e => .error (.domainErr e)
  | .ok () => wildcardDepthCheck rest

/-- `Policy.ValidateWildcard` (`policy.go` lines 79-117). -/
def validateWildcard (blocked : List String) (pattern : String) :
    Except WildcardErr Unit :=
  let p := normalizeDomain pattern
  if p = "" then .error .emptyPattern
  else if !goStartsWith p "*." then .error .notLeftmost
  else
    let rest := goDrop p 2
    if goContainsChar rest '*' then .error .multipleWildcards
    else wildcardDomainStep rest (validateDomain blocked rest)

/-! ### Claim-side predicates for C1 and C2

These follow the words of the spec sentences, to be compared with the
definitions translated from the source. -/

/-- The spec's success condition for `validate_domain`: the normalised
domain literally ends with one of the five dotted allowed suffixes. -/
def specEndsWithAllowedTLD (d : String) : Bool :=
  allowedTLDs.any fun tld => goEndsWith d tld

/-- The amended success condition: ends with a dotted allowed suffix, or
equals an allowed TLD with its leading dot removed (which is what
`matchesAllowed` actually tests). -/
def amendedAllowed (d : String) : Bool :=
  allowedTLDs.any fun tld => goEndsWith d tld || d == goDrop tld 1

/-- The amended blocked condition, mirroring `matchesBlocked`. -/
def amendedBlocked (blocked : List String) (d : String) : Bool :=
  blocked.any fun tld => goEndsWith d tld || d == goDrop tld 1

theorem matchesAllowed_eq_amended (d : String) :
    matchesAllowed d = amendedAllowed d := by
  unfold matchesAllowed amendedAllowed
  congr 1
  funext t
  exact Bool.or_comm _ _

theorem matchesBlocked_eq_amended (blocked : List String) (d : String) :
    matchesBlocked blocked d = amendedBlocked blocked d := by
  unfold matchesBlocked amendedBlocked
  congr 1
  funext t
  exact Bool.or_comm _ _

/-- C1 counterexample: the claim's "succeeds iff the normalised domain ends
with one of the allowed TLD suffixes" fails at the bare TLD `"localhost"`,
which `ValidateDomain` accepts (via the `domain == tld[1:]` branch of
`matchesAllowed`) although it does not end with the suffix `".localhost"`;
and the claim's "generic not-allowed error otherwise" fails at `""`, which
produces the distinct empty-domain error although it does not end with a
blocked TLD. -/
theorem c1_counterexample :
    validateDomain sampleBlockedTLDs "localhost" = .ok () ∧
      specEndsWithAllowedTLD (normalizeDomain "localhost") = false ∧
      validateDomain sampleBlockedTLDs "" = .error .emptyDomain ∧
      matchesBlocked sampleBlockedTLDs (normalizeDomain "") = false ∧
      DomainErr.emptyDomain ≠ DomainErr.notAllowed := by
  decide

/-- C1 (amended): for every block set and every input, `ValidateDomain`
succeeds iff the trimmed, lower-cased input (trailing dot removed) ends
with an allowed dotted TLD suffix or equals an allowed TLD without its dot;
when it fails it returns the empty-domain error exactly when the normalised
input is empty, the distinct blocked-TLD error exactly when the input is
non-empty, not allowed, and ends with (or equals, without the dot) a
blocked TLD, and the generic not-allowed error in all remaining cases. -/
theorem c1_validateDomain_characterisation (blocked : List String)
    (d : String) :
    (validateDomain blocked d = .ok () ↔
      amendedAllowed (normalizeDomain d) = true) ∧
    (validateDomain blocked d = .error .emptyDomain ↔
      normalizeDomain d = "") ∧
    (validateDomain blocked d = .error .blockedTLD ↔
      (normalizeDomain d ≠ "" ∧
        amendedAllowed (normalizeDomain d) = false ∧
        amendedBlocked blocked (normalizeDomain d) = true)) ∧
    (validateDomain blocked d = .error .notAllowed ↔
      (normalizeDomain d ≠ "" ∧
        amendedAllowed (normalizeDomain d) = false ∧
        amendedBlocked blocked (normalizeDomain d) = false)) := by
  simp only [validateDomain]
  rw [← matchesAllowed_eq_amended, ← matchesBlocked_eq_amended]
  have hE : matchesAllowed "" = false := by decide
  by_cases h0 : normalizeDomain d = ""
  · simp [h0, hE]
  · by_cases h1 : matchesAllowed (normalizeDomain d) <;>
      by_cases h2 : matchesBlocked blocked (normalizeDomain d) <;>
      simp [h0, h1, h2]

/-- The success condition of claim C2 exactly as the claim words it: the
trimmed, lower-cased pattern (no trailing-dot removal) begins with `*.`,
contains no other `*`, its tail validates as a domain, and the tail has at
least 2 dot-separated labels (3 when it ends with `.home.arpa`). -/
def claimWildcardOK (blocked : List String) (p : String) : Prop :=
  let q := goToLower (goTrim p)
  goStartsWith q "*." = true ∧
  goContainsChar (goDrop q 2) '*' = false ∧
  validateDomain blocked (goDrop q 2) = .ok () ∧
  (if goEndsWith (goDrop q 2) ".home.arpa" then 3 else 2) ≤
    (goSplitDots (goDrop q 2)).length

/-- The amended success condition: same as the claim, but the
normalisation also removes one trailing dot (as `ValidateWildcard` does),
and the three-label requirement also applies when the tail *equals*
`home.arpa` (the `endsWithMultiLabelTLD` equality branch). -/
def wildcardSpecOK (blocked : List String) (p : String) : Prop :=
  let q := normalizeDomain p
  goStartsWith q "*." = true ∧
  goContainsChar (goDrop q 2) '*' = false ∧
  validateDomain blocked (goDrop q 2) = .ok () ∧
  (if endsWithMultiLabelTLD (goDrop q 2) then 3 else 2) ≤
    (goSplitDots (goDrop q 2)).length

/-- C2 counterexample: the claim's success condition holds for
`"*.localhost."` (its tail `"localhost."` splits into two labels because of
the trailing dot the claim does not strip) and for `"*.home.arpa"` (whose
tail equals — but does not end with — `.home.arpa`, so the claim demands
only 2 labels), yet `ValidateWildcard` rejects both with the depth error. -/
theorem c2_counterexample :
    claimWildcardOK sampleBlockedTLDs "*.localhost." ∧
      validateWildcard sampleBlockedTLDs "*.localhost." = .error .depth ∧
      claimWildcardOK sampleBlockedTLDs "*.home.arpa" ∧
      validateWildcard sampleBlockedTLDs "*.home.arpa" = .error .depth := by
  constructor
  · refine ⟨by decide, by decide, by decide, by decide⟩
  refine ⟨by decide, ⟨by decide, by decide, by decide⟩, by decide⟩

/-- C2 (amended): for every block set and pattern, `ValidateWildcard`
succeeds iff the trimmed, lower-cased pattern with a trailing dot removed
begins with `*.`, contains no other `*`, its tail validates as a domain,
and the tail has at least 2 dot-separated labels — at least 3 when the
tail ends with or equals the multi-label allowed TLD `.home.arpa`.  In
particular `*.app.localhost` succeeds and `*.localhost` fails. -/
theorem c2_validateWildcard_characterisation (blocked : List String)
    (p : String) :
    (validateWildcard blocked p = .ok () ↔ wildcardSpecOK blocked p) ∧
    validateWildcard [] "*.app.localhost" = .ok () ∧
    validateWildcard [] "*.localhost" = .error .depth := by
  refine ⟨?_, by decide, by decide⟩
  simp only [validateWildcard, wildcardSpecOK]
  by_cases h0 : normalizeDomain p = ""
  · have hs : goStartsWith "" "*." = false := by decide
    simp [h0, hs]
  · by_cases h1 : goStartsWith (normalizeDomain p) "*."
    · by_cases h2 : goContainsChar (goDrop (normalizeDomain p) 2) '*'
      · simp [h0, h1, h2]
      · cases hv : validateDomain blocked (goDrop (normalizeDomain p) 2) with
        | error e =>
          simp [h0, h1, h2, hv, wildcardDomainStep]
        | ok u =>
          cases u
          by_cases h3 : endsWithMultiLabelTLD (goDrop (normalizeDomain p) 2)
          · by_cases h4 :
                (goSplitDots (goDrop (normalizeDomain p) 2)).length < 3 <;>
              simp [h0, h1, h2, h3, h4, hv, wildcardDomainStep,
                wildcardDepthCheck] <;> omega
          · by_cases h4 :
                (goSplitDots (goDrop (normalizeDomain p) 2)).length < 2 <;>
              simp [h0, h1, h2, h3, h4, hv, wildcardDomainStep,
                wildcardDepthCheck] <;> omega
    · simp [h0, h1]

/-! ## Association lists modelling Go `map[string]T`

Insert replaces the value when the key is present (Go map assignment),
erase removes the key (Go `delete`), lookup returns the value if present.
States reachable from the empty map have pairwise-distinct keys. -/

/-- Go map read `m[k]`. -/
def alistLookup {α : Type _} : List (String × α) → String → Option α
  | [], _ => none
  | p :: rest, k => if p.1 == k then some p.2 else alistLookup rest k

/-- Go map write `m[k] = v`: replace the value when the key is present,
append otherwise. -/
def alistInsert {α : Type _} : List (String × α) → String → α →
    List (String × α)
  | [], k, v => [(k, v)]
  | p :: rest, k, v =>
    if p.1 == k then (k, v) :: rest else p :: alistInsert rest k v

/-- Go map `delete(m, k)`. -/
def alistErase {α : Type _} : List (String × α) → String →
    List (String × α)
  | [], _ => []
  | p :: rest, k =>
    if p.1 == k then alistErase rest k else p :: alistErase rest k

/-! ## Leaf issuer (`internal/tls/issuer/issuer.go`)

ECDSA key generation, X.509 signing, PEM encoding and parsing are effects
outside the program text; their success/failure is supplied by `IssueEnv`
and the moments the code would perform them are recorded as
`CryptoEffect`s.  A `CachedCert` keeps the data the claims speak about:
the SAN lists the certificate template was built from and the expiry. -/

/-- `DefaultValidFor = 24 * time.Hour`, in seconds. -/
def defaultValidFor : Int := 24 * 3600

/-- `renewBefore = 1 * time.Hour`, in seconds. -/
def renewBefore : Int := 3600

/-- The part of `issuer.CachedCert` (and its parsed leaf) the claims are
about: the certificate's SAN entries (from `template.DNSNames` /
`template.IPAddresses`) and `Expiry` (= `notAfter`). -/
structure CachedCert where
  san : List String
  ipSans : List String
  expiry : Int
  deriving DecidableEq, Repr

/-- The issuer's certificate cache, keyed by primary DNS name. -/
abbrev Cache : Type := List (String × CachedCert)

/-- Errors of `Issuer.Issue`. -/
inductive IssueErr : Type
  | noNames
  | wildcardErr (name : String) (e : WildcardErr)
  | domainErr (name : String) (e : DomainErr)
  | keygenFailed
  | signFailed
  deriving DecidableEq, Repr

/-- The observable crypto/cache effects of `Issue`, in program order. -/
inductive CryptoEffect : Type
  | genKey
  | sign
  | cacheInsert (key : String)
  deriving DecidableEq, Repr

/-- Outcomes of the effects the issuer performs outside the program text. -/
structure IssueEnv : Type where
  keygenOk : Bool
  signOk : Bool
  deriving DecidableEq, Repr

/-- The per-name dispatch of `Issue`'s validation loop (`issuer.go` lines
216-226): names starting with `*.` go to `ValidateWildcard`, all others to
`ValidateDomain`. -/
def nameValidationErr (blocked : List String) (n : String) :
    Option IssueErr :=
  if goStartsWith n "*." then
    match validateWildcard blocked n with
    | .error e => some (.wildcardErr n e)
    | .ok () => none
  else
    match validateDomain blocked n with
    | .error e => some (.domainErr n e)
    | .ok () => none

/-- `Issue`'s validation loop: the first failing name aborts. -/
def validateIssueNames (blocked : List String) :
    List String → Option IssueErr
  | [] => none
  | n :: rest =>
    match nameValidationErr blocked n with
    | some e => some e
    | none => validateIssueNames blocked rest

/-- The final caching step of `Issue` (`issuer.go` lines 299-304): cache
under the primary (first) DNS name, if any. -/
def cacheByPrimary (cache : Cache) (names : List String)
    (cert : CachedCert) : Cache × List CryptoEffect :=
  match names with
  | [] => (cache, [])
  | primary :: _ => (alistInsert cache primary cert, [.cacheInsert primary])

/-- `Issue` after validation has passed (`issuer.go` lines 228-306): key
generation, expiry computation, signing, cache insertion. -/
def issueValidated (env : IssueEnv) (now : Int) (cache : Cache)
    (req : List String × List String × Int) :
    Except IssueErr CachedCert × Cache × List CryptoEffect :=
  if !env.keygenOk then (.error .keygenFailed, cache, [.genKey])
  else
    let validFor := if req.2.2 == 0 then defaultValidFor else req.2.2
    let notAfter := now + validFor
    if !env.signOk then (.error .signFailed, cache, [.genKey, .sign])
    else
      let cert : CachedCert := ⟨req.1, req.2.1, notAfter⟩
      let inserted := cacheByPrimary cache req.1 cert
      (.ok cert, inserted.1, [.genKey, .sign] ++ inserted.2)

/-- Dispatch on the result of the validation loop. -/
def issueDispatch (env : IssueEnv) (now : Int) (cache : Cache)
    (req : List String × List String × Int) :
    Option IssueErr → Except IssueErr CachedCert × Cache × List CryptoEffect
  | some e => (.error e, cache, [])
  | none => issueValidated env now cache req

/-- `Issuer.Issue` (`issuer.go` lines 210-307).  A request is a triple
`(dnsNames, ips, validFor)` (IP addresses as strings; `validFor` in
seconds, `0` selecting the 24-hour default). -/
def issue (blocked : List String) (env : IssueEnv) (now : Int)
    (cache : Cache) (req : List String × List String × Int) :
    Except IssueErr CachedCert × Cache × List CryptoEffect :=
  if req.1.isEmpty && req.2.1.isEmpty then (.error .noNames, cache, [])
  else issueDispatch env now cache req (validateIssueNames blocked req.1)

/-- Errors of `Issuer.GetCertificate`. -/
inductive GetCertErr : Type
  | noServerName
  | policyErr (e : DomainErr)
  | issueErr (e : IssueErr)
  deriving DecidableEq, Repr

/-- The cache-freshness test of `GetCertificate` (`issuer.go` line 328):
a hit is used only while `now < expiry - renewBefore`. -/
def cacheFresh (now : Int) : Option CachedCert → Option CachedCert
  | some c => if now < c.expiry - renewBefore then some c else none
  | none => none

/-- `GetCertificate` after the cache decision: a fresh-enough hit is
returned as is, otherwise `Issue` runs for `[serverName]`. -/
def getCertCacheStep (blocked : List String) (env : IssueEnv) (now : Int)
    (cache : Cache) (serverName : String) :
    Option CachedCert → Except GetCertErr CachedCert × Cache
  | some c => (.ok c, cache)
  | none =>
    let r := issue blocked env now cache ([serverName], [], 0)
    (r.1.mapError .issueErr, r.2.1)

/-- Dispatch on the policy check of `GetCertificate`. -/
def getCertPolicyStep (blocked : List String) (env : IssueEnv) (now : Int)
    (cache : Cache) (serverName : String) :
    Except DomainErr Unit → Except GetCertErr CachedCert × Cache
  | .error e => (.error (.policyErr e), cache)
  | .ok () =>
    getCertCacheStep blocked env now cache serverName
      (cacheFresh now (alistLookup cache serverName))

/-- `Issuer.GetCertificate` (`issuer.go` lines 312-341). -/
def getCertificate (blocked : List String) (env : IssueEnv) (now : Int)
    (cache : Cache) (serverName : String) :
    Except GetCertErr CachedCert × Cache :=
  if serverName == "" then (.error .noServerName, cache)
  else
    getCertPolicyStep blocked env now cache serverName
      (validateDomain blocked serverName)

/-! ### Lemmas about the issuer -/

theorem validateIssueNames_of_bad {blocked : List String} :
    ∀ {names : List String} {n : String}, n ∈ names →
      nameValidationErr blocked n ≠ none →
      ∃ e, validateIssueNames blocked names = some e := by
  intro names
  induction names with
  | nil => intro n h; cases h
  | cons m rest ih =>
    intro n hmem hbad
    cases hm : nameValidationErr blocked m with
    | some e => exact ⟨e, by simp [validateIssueNames, hm]⟩
    | none =>
      rcases List.mem_cons.mp hmem with h | h
      · rw [h] at hbad; exact absurd hm hbad
      · obtain ⟨e, he⟩ := ih h hbad
        exact ⟨e, by simp [validateIssueNames, hm, he]⟩

theorem alistLookup_mem {α : Type _} {m : List (String × α)} {k : String}
    {v : α} (h : alistLookup m k = some v) : (k, v) ∈ m := by
  induction m with
  | nil => cases h
  | cons p rest ih =>
    rw [alistLookup] at h
    by_cases hk : p.1 == k
    · rw [if_pos hk] at h
      obtain rfl := Option.some.inj h
      have : p = (k, p.2) := by
        obtain ⟨p1, p2⟩ := p
        simp only [beq_iff_eq] at hk
        rw [hk]
      rw [← this]
      exact List.mem_cons_self p rest
    · rw [if_neg hk] at h
      exact List.mem_cons_of_mem p (ih h)

/-- The cache invariant maintained by `Issue`: every entry's key occurs in
its certificate's SAN list (entries are cached under the primary DNS name,
which the template's SAN list contains). -/
abbrev cacheWF (cache : Cache) : Prop := ∀ p ∈ cache, p.1 ∈ p.2.san

theorem issue_ok_shape {blocked : List String} {env : IssueEnv} {now : Int}
    {cache : Cache} {req : List String × List String × Int} {c : CachedCert}
    (h : (issue blocked env now cache req).1 = .ok c) :
    c.san = req.1 ∧ c.ipSans = req.2.1 ∧
      c.expiry = now + (if req.2.2 == 0 then defaultValidFor else req.2.2) := by
  unfold issue at h
  by_cases h0 : (req.1.isEmpty && req.2.1.isEmpty) = true
  · rw [if_pos h0] at h; cases h
  · rw [if_neg h0] at h
    cases hv : validateIssueNames blocked req.1 with
    | some e => rw [hv] at h; cases h
    | none =>
      rw [hv] at h
      simp only [issueDispatch, issueValidated] at h
      by_cases hk : env.keygenOk
      · by_cases hs : env.signOk
        · simp only [hk, hs, Bool.not_true, Bool.false_eq_true, if_false] at h
          obtain rfl := Except.ok.inj h
          exact ⟨rfl, rfl, rfl⟩
        · simp only [hk, Bool.eq_false_iff.mpr hs, Bool.not_true,
            Bool.not_false, Bool.false_eq_true, if_false, if_true] at h
          cases h
      · simp only [Bool.eq_false_iff.mpr hk, Bool.not_false, if_true] at h
        cases h

/-- C3: `Issuer.Issue` rejects a request whose DNS-name and IP lists are
both empty, and rejects whenever some requested DNS name fails policy
validation (`ValidateWildcard` for `*.`-prefixed names, `ValidateDomain`
for the rest); in every such failure it returns before any key-generation
or signing effect (empty effect trace) and with the certificate cache
unchanged. -/
theorem c3_issue_validation (blocked : List String) (env : IssueEnv)
    (now : Int) (cache : Cache) (req : List String × List String × Int) :
    (req.1 = [] → req.2.1 = [] →
      issue blocked env now cache req = (.error .noNames, cache, [])) ∧
    (∀ n ∈ req.1, nameValidationErr blocked n ≠ none →
      ∃ e, issue blocked env now cache req = (.error e, cache, [])) := by
  obtain ⟨d, i, v⟩ := req
  constructor
  · intro h1 h2
    simp only at h1 h2
    subst h1; subst h2
    simp [issue]
  · intro n hmem hbad
    simp only at hmem hbad
    have hbad2 : nameValidationErr blocked n ≠ none := hbad
    obtain ⟨e, he⟩ : ∃ e, validateIssueNames blocked d = some e :=
      validateIssueNames_of_bad hmem hbad2
    refine ⟨e, ?_⟩
    have hne : d.isEmpty = false := by
      cases hq : d with
      | nil => rw [hq] at hmem; cases hmem
      | cons a t => rfl
    simp [issue, hne, he, issueDispatch]

/-- C3 witness: a request for `example.com` (a blocked public TLD) is
rejected with no effects and an unchanged cache. -/
theorem c3_issue_validation_witness :
    ∃ e, issue sampleBlockedTLDs ⟨true, true⟩ 0 []
        (["example.com"], [], 0) = (.error e, [], []) :=
  (c3_issue_validation sampleBlockedTLDs ⟨true, true⟩ 0 []
      (["example.com"], [], 0)).2
    "example.com" (by decide) (by decide)

/-- C4 counterexample: for the SNI `"*.localhost"` the server name is
non-empty, `ValidateDomain` accepts it (it ends with `.localhost`),
nothing is cached and key generation and signing would succeed, yet
`GetCertificate` returns a wildcard-depth error rather than issuing a
fresh certificate — `Issue` re-validates the name as a wildcard pattern. -/
theorem c4_counterexample :
    validateDomain sampleBlockedTLDs "*.localhost" = .ok () ∧
      alistLookup ([] : Cache) "*.localhost" = none ∧
      getCertificate sampleBlockedTLDs ⟨true, true⟩ 0 [] "*.localhost" =
        (.error (.issueErr (.wildcardErr "*.localhost" .depth)), []) := by
  refine ⟨by decide, by decide, by decide⟩

/-- C4 (amended): `GetCertificate` fails when the server name is empty or
fails `ValidateDomain`; otherwise it returns the cached certificate for
that name exactly when one is cached with `now < expiry - 1 hour`, and in
all other cases returns the result of `Issue` for `[serverName]` — a
fresh certificate whenever the name also passes `Issue`'s own per-name
validation (which rejects `*.`-prefixed SNIs of insufficient depth) and
key generation and signing succeed.  Every certificate it returns has the
requested SNI in its SAN list and an expiry strictly in the future. -/
theorem c4_getCertificate_characterisation (blocked : List String)
    (env : IssueEnv) (now : Int) (cache : Cache) (s : String)
    (hWF : cacheWF cache) :
    (s = "" →
      getCertificate blocked env now cache s = (.error .noServerName, cache)) ∧
    (∀ e, s ≠ "" → validateDomain blocked s = .error e →
      getCertificate blocked env now cache s =
        (.error (.policyErr e), cache)) ∧
    (∀ c, s ≠ "" → validateDomain blocked s = .ok () →
      alistLookup cache s = some c → now < c.expiry - renewBefore →
      getCertificate blocked env now cache s = (.ok c, cache)) ∧
    (s ≠ "" → validateDomain blocked s = .ok () →
      cacheFresh now (alistLookup cache s) = none →
      (getCertificate blocked env now cache s =
        ((issue blocked env now cache ([s], [], 0)).1.mapError .issueErr,
          (issue blocked env now cache ([s], [], 0)).2.1) ∧
       (env.keygenOk = true → env.signOk = true →
        nameValidationErr blocked s = none →
        (getCertificate blocked env now cache s).1 =
          .ok ⟨[s], [], now + defaultValidFor⟩))) ∧
    (∀ c, (getCertificate blocked env now cache s).1 = .ok c →
      now < c.expiry ∧ s ∈ c.san) := by
  have hne : s = "" ∨ (s == "") = false := by
    by_cases h : s = ""
    · exact Or.inl h
    · exact Or.inr (beq_eq_false_iff_ne.mpr h)
  refine ⟨?_, ?_, ?_, ?_, ?_⟩
  · intro h; simp [getCertificate, h]
  · intro e h hv
    simp [getCertificate, beq_eq_false_iff_ne.mpr h, hv, getCertPolicyStep]
  · intro c h hv hc hfresh
    simp [getCertificate, beq_eq_false_iff_ne.mpr h, hv, getCertPolicyStep,
      hc, cacheFresh, hfresh, getCertCacheStep]
  · intro h hv hnone
    constructor
    · simp [getCertificate, beq_eq_false_iff_ne.mpr h, hv, getCertPolicyStep,
        hnone, getCertCacheStep]
    · intro hk hs hval
      have hissue :
          (issue blocked env now cache ([s], [], 0)).1 =
            .ok ⟨[s], [], now + defaultValidFor⟩ := by
        simp [issue, validateIssueNames, hval, issueDispatch, issueValidated,
          hk, hs, cacheByPrimary]
      simp [getCertificate, beq_eq_false_iff_ne.mpr h, hv, getCertPolicyStep,
        hnone, getCertCacheStep, hissue, Except.mapError]
  · intro c hok
    rcases hne with h | h
    · simp [getCertificate, h] at hok
    · rw [getCertificate, if_neg (by simp [h])] at hok
      cases hv : validateDomain blocked s with
      | error e => rw [hv] at hok; cases hok
      | ok u =>
        cases u
        rw [hv] at hok
        simp only [getCertPolicyStep] at hok
        cases hl : alistLookup cache s with
        | some c0 =>
          rw [hl] at hok
          simp only [cacheFresh] at hok
          by_cases hf : now < c0.expiry - renewBefore
          · rw [if_pos hf] at hok
            simp only [getCertCacheStep] at hok
            obtain rfl := Except.ok.inj hok
            have hmem := alistLookup_mem hl
            refine ⟨?_, hWF _ hmem⟩
            have : (3600 : Int) = renewBefore := rfl
            omega
          · rw [if_neg hf] at hok
            simp only [getCertCacheStep] at hok
            cases hi : (issue blocked env now cache ([s], [], 0)).1 with
            | error e => rw [hi] at hok; cases hok
            | ok c1 =>
              rw [hi] at hok
              simp only [Except.mapError] at hok
              obtain rfl := Except.ok.inj hok
              obtain ⟨hsan, _, hexp⟩ := issue_ok_shape hi
              refine ⟨?_, by rw [hsan]; exact List.mem_singleton.mpr rfl⟩
              rw [hexp]
              have : defaultValidFor = (86400 : Int) := rfl
              simp only [show ((0 : Int) == 0) = true from rfl, if_true]
              omega
        | none =>
          rw [hl] at hok
          simp only [cacheFresh] at hok
          simp only [getCertCacheStep] at hok
          cases hi : (issue blocked env now cache ([s], [], 0)).1 with
          | error e => rw [hi] at hok; cases hok
          | ok c1 =>
            rw [hi] at hok
            simp only [Except.mapError] at hok
            obtain rfl := Except.ok.inj hok
            obtain ⟨hsan, _, hexp⟩ := issue_ok_shape hi
            refine ⟨?_, by rw [hsan]; exact List.mem_singleton.mpr rfl⟩
            rw [hexp]
            have : defaultValidFor = (86400 : Int) := rfl
            simp only [show ((0 : Int) == 0) = true from rfl, if_true]
            omega

/-- C4 witness: with one fresh cached certificate for `app.localhost`, the
cached entry is returned as is. -/
theorem c4_getCertificate_witness :
    getCertificate sampleBlockedTLDs ⟨true, true⟩ 0
        [("app.localhost", ⟨["app.localhost"], [], 90000⟩)]
        "app.localhost" =
      (.ok ⟨["app.localhost"], [], 90000⟩,
        [("app.localhost", ⟨["app.localhost"], [], 90000⟩)]) :=
  (c4_getCertificate_characterisation sampleBlockedTLDs ⟨true, true⟩ 0
      [("app.localhost", ⟨["app.localhost"], [], 90000⟩)] "app.localhost"
      (by intro p hp; simp at hp; rw [hp]; simp)).2.2.1
    ⟨["app.localhost"], [], 90000⟩ (by decide) (by decide) (by decide)
    (by decide)

/-! ### Association-list lemmas -/

/-- Keys of an association list are pairwise distinct (true of every state
reachable from an empty Go map). -/
def keysNodup {α : Type _} (m : List (String × α)) : Prop :=
  (m.map Prod.fst).Nodup

theorem mem_alistErase {α : Type _} {m : List (String × α)} {k : String}
    {p : String × α} (h : p ∈ alistErase m k) : p ∈ m ∧ p.1 ≠ k := by
  induction m with
  | nil => cases h
  | cons q rest ih =>
    rw [alistErase] at h
    by_cases hk : q.1 == k
    · rw [if_pos hk] at h
      obtain ⟨hm, hne⟩ := ih h
      exact ⟨List.mem_cons_of_mem q hm, hne⟩
    · rw [if_neg hk] at h
      rcases List.mem_cons.mp h with h | h
      · refine ⟨h ▸ List.mem_cons_self q rest, ?_⟩
        rw [h]
        simpa using hk
      · obtain ⟨hm, hne⟩ := ih h
        exact ⟨List.mem_cons_of_mem q hm, hne⟩

theorem mem_alistInsert {α : Type _} {m : List (String × α)} {k : String}
    {v : α} {p : String × α} (hnd : keysNodup m)
    (h : p ∈ alistInsert m k v) : p = (k, v) ∨ (p ∈ m ∧ p.1 ≠ k) := by
  induction m with
  | nil =>
    rw [alistInsert] at h
    rcases List.mem_cons.mp h with h | h
    · exact Or.inl h
    · cases h
  | cons q rest ih =>
    rw [alistInsert] at h
    have hnd' : keysNodup rest := by
      simpa [keysNodup] using (List.nodup_cons.mp hnd).2
    by_cases hk : q.1 == k
    · rw [if_pos hk] at h
      rcases List.mem_cons.mp h with h | h
      · exact Or.inl h
      · right
        refine ⟨List.mem_cons_of_mem q h, ?_⟩
        intro hpk
        have hqk : q.1 = k := by simpa using hk
        have : p.1 ∈ rest.map Prod.fst := List.mem_map_of_mem Prod.fst h
        have hnotin := (List.nodup_cons.mp hnd).1
        rw [hpk, ← hqk] at this
        exact hnotin this
    · rw [if_neg hk] at h
      rcases List.mem_cons.mp h with h | h
      · right
        refine ⟨h ▸ List.mem_cons_self q rest, ?_⟩
        rw [h]
        simpa using hk
      · rcases ih hnd' h with h | ⟨hm, hne⟩
        · exact Or.inl h
        · exact Or.inr ⟨List.mem_cons_of_mem q hm, hne⟩

theorem keys_alistInsert {α : Type _} (m : List (String × α)) (k : String)
    (v : α) :
    (alistInsert m k v).map Prod.fst = m.map Prod.fst ∨
      ((alistInsert m k v).map Prod.fst = m.map Prod.fst ++ [k] ∧
        k ∉ m.map Prod.fst) := by
  induction m with
  | nil => exact Or.inr ⟨rfl, by simp⟩
  | cons q rest ih =>
    rw [alistInsert]
    by_cases hk : q.1 == k
    · left
      have hqk : q.1 = k := by simpa using hk
      simp [hqk]
    · have hqk : ¬ q.1 = k := by simpa using hk
      rw [if_neg hk]
      rcases ih with h | ⟨h, hnot⟩
      · left
        simp [h]
      · right
        constructor
        · simp [h]
        · simp only [List.map_cons, List.mem_cons]
          rintro (h | h)
          · exact hqk h.symm
          · exact hnot h

theorem keysNodup_alistInsert {α : Type _} {m : List (String × α)}
    (hnd : keysNodup m) (k : String) (v : α) :
    keysNodup (alistInsert m k v) := by
  unfold keysNodup at *
  rcases keys_alistInsert m k v with h | ⟨h, hnot⟩
  · rw [h]; exact hnd
  · rw [h]
    refine List.Nodup.append hnd (List.nodup_singleton k) ?_
    intro a ha hb
    exact hnot (List.mem_singleton.mp hb ▸ ha)

theorem keysNodup_alistErase {α : Type _} {m : List (String × α)}
    (hnd : keysNodup m) (k : String) : keysNodup (alistErase m k) := by
  induction m with
  | nil => exact hnd
  | cons q rest ih =>
    have hnd' : keysNodup rest := by
      simpa [keysNodup] using (List.nodup_cons.mp hnd).2
    rw [alistErase]
    by_cases hk : q.1 == k
    · rw [if_pos hk]
      exact ih hnd'
    · rw [if_neg hk]
      unfold keysNodup at *
      rw [List.map_cons, List.nodup_cons]
      refine ⟨?_, ih hnd'⟩
      intro hin
      rcases List.mem_map.mp hin with ⟨p, hp, hpe⟩
      have := (mem_alistErase hp).1
      have hnotin := (List.nodup_cons.mp hnd).1
      exact hnotin (hpe ▸ List.mem_map_of_mem Prod.fst this)

theorem alistLookup_insert_self {α : Type _} (m : List (String × α))
    (k : String) (v : α) : alistLookup (alistInsert m k v) k = some v := by
  induction m with
  | nil => simp [alistInsert, alistLookup]
  | cons q rest ih =>
    rw [alistInsert]
    by_cases hk : q.1 == k
    · rw [if_pos hk]
      simp [alistLookup]
    · rw [if_neg hk]
      rw [alistLookup, if_neg hk]
      exact ih

theorem alistLookup_insert_other {α : Type _} {m : List (String × α)}
    {k k' : String} (v : α) (hne : k' ≠ k) :
    alistLookup (alistInsert m k v) k' = alistLookup m k' := by
  induction m with
  | nil =>
    simp only [alistInsert, alistLookup]
    rw [if_neg (by simpa using fun h => hne h.symm)]
  | cons q rest ih =>
    rw [alistInsert]
    by_cases hk : q.1 == k
    · rw [if_pos hk]
      have hqk : q.1 = k := by simpa using hk
      rw [alistLookup, alistLookup, if_neg (by simpa using fun h => hne h.symm),
        if_neg (by simpa [hqk] using fun h => hne h.symm)]
    · rw [if_neg hk]
      rw [alistLookup, alistLookup]
      by_cases hq : q.1 == k'
      · rw [if_pos hq, if_pos hq]
      · rw [if_neg hq, if_neg hq]
        exact ih

theorem alistLookup_erase_other {α : Type _} {m : List (String × α)}
    {k k' : String} (hne : k' ≠ k) :
    alistLookup (alistErase m k) k' = alistLookup m k' := by
  induction m with
  | nil => rfl
  | cons q rest ih =>
    rw [alistErase]
    by_cases hk : q.1 == k
    · rw [if_pos hk]
      have hqk : q.1 = k := by simpa using hk
      rw [alistLookup, if_neg (by simpa [hqk] using fun h => hne h.symm)]
      exact ih
    · rw [if_neg hk]
      rw [alistLookup, alistLookup]
      by_cases hq : q.1 == k'
      · rw [if_pos hq, if_pos hq]
      · rw [if_neg hq, if_neg hq]
        exact ih

theorem eq_of_mem_keysNodup {α : Type _} {m : List (String × α)}
    (hnd : keysNodup m) {p q : String × α} (hp : p ∈ m) (hq : q ∈ m)
    (hk : p.1 = q.1) : p = q := by
  induction m with
  | nil => cases hp
  | cons r rest ih =>
    have hnd' : keysNodup rest := by
      simpa [keysNodup] using (List.nodup_cons.mp hnd).2
    have hnotin := (List.nodup_cons.mp hnd).1
    rcases List.mem_cons.mp hp with hp1 | hp1 <;>
      rcases List.mem_cons.mp hq with hq1 | hq1
    · rw [hp1, hq1]
    · exfalso
      apply hnotin
      rw [← hp1, hk]
      exact List.mem_map_of_mem Prod.fst hq1
    · exfalso
      apply hnotin
      rw [← hq1, ← hk]
      exact List.mem_map_of_mem Prod.fst hp1
    · exact ih hnd' hp1 hq1

/-! ## Service store (`internal/storage/store.go`)

The store keeps two Go maps: `records : id → *ServiceRecord` and
`names : name → id`.  Mutating operations change the maps and then call
`persist`; a persist failure is returned to the caller but (as in the
source) nothing is rolled back, so the post-state never depends on the
persist outcome.  The persist outcome is supplied as a `Bool` input. -/

/-- `storage.ServiceRecord` (`store.go` lines 12-26). -/
structure ServiceRecord where
  id : String
  name : String
  port : Int
  targetHost : String
  pid : Int
  exePath : String
  args : List String
  userDefined : Bool
  isActive : Bool
  lastSeen : Int
  keep : Bool
  group : String
  useTLS : Bool
  deriving DecidableEq, Repr

/-- The in-memory state of `storage.Store`. -/
structure StoreState where
  records : List (String × ServiceRecord)
  names : List (String × String)
  deriving DecidableEq, Repr

/-- A `Store` as produced by `NewStore` on a fresh path. -/
def emptyStore : StoreState := ⟨[], []⟩

/-- Errors of the store operations. -/
inductive StoreErr : Type
  | notFound
  | nameInUse
  | persistFailed
  deriving DecidableEq, Repr

/-- Result of `Store.persist`, supplied as an input. -/
def persistResult (persistOk : Bool) : Except StoreErr Unit :=
  if persistOk then .ok () else .error .persistFailed

/-- The map mutations of `Store.Save` (`store.go` lines 81-91): drop the
old name mapping when the id is already present, then write both maps. -/
def saveMut (s : StoreState) (r : ServiceRecord) : StoreState :=
  let names1 :=
    match alistLookup s.records r.id with
    | some old => alistErase s.names old.name
    | none => s.names
  { records := alistInsert s.records r.id r,
    names := alistInsert names1 r.name r.id }

/-- `Store.Save`. -/
def save (persistOk : Bool) (s : StoreState) (r : ServiceRecord) :
    Except StoreErr Unit × StoreState :=
  (persistResult persistOk, saveMut s r)

/-- The mutation branch of `Store.UpdateName` (`store.go` lines 105-113). -/
def updateNameApply (persistOk : Bool) (s : StoreState) (id : String)
    (record : ServiceRecord) (newName : String) :
    Except StoreErr Unit × StoreState :=
  (persistResult persistOk,
    { records := alistInsert s.records id
        { record with name := newName, userDefined := true },
      names := alistInsert (alistErase s.names record.name) newName id })

/-- `Store.UpdateName` (`store.go` lines 94-114): not-found and
name-collision checks, then the rename. -/
def updateName (persistOk : Bool) (s : StoreState) (id newName : String) :
    Except StoreErr Unit × StoreState :=
  match alistLookup s.records id with
  | none => (.error .notFound, s)
  | some record =>
    match alistLookup s.names newName with
    | some existingID =>
      if existingID ≠ id then (.error .nameInUse, s)
      else updateNameApply persistOk s id record newName
    | none => updateNameApply persistOk s id record newName

/-- `Store.UpdateKeep` (`store.go` lines 132-140). -/
def updateKeep (persistOk : Bool) (s : StoreState) (id : String)
    (keep : Bool) : Except StoreErr Unit × StoreState :=
  match alistLookup s.records id with
  | none => (.error .notFound, s)
  | some record =>
    (persistResult persistOk,
      { s with records := alistInsert s.records id { record with keep := keep } })

/-- `Store.Remove` (`store.go` lines 143-153). -/
def remove (persistOk : Bool) (s : StoreState) (id : String) :
    Except StoreErr Unit × StoreState :=
  match alistLookup s.records id with
  | none => (.error .notFound, s)
  | some record =>
    (persistResult persistOk,
      { records := alistErase s.records id,
        names := alistErase s.names record.name })

/-- `Store.RemoveByName` (`store.go` lines 156-162). -/
def removeByName (persistOk : Bool) (s : StoreState) (name : String) :
    Except StoreErr Unit × StoreState :=
  match alistLookup s.names name with
  | none => (.error .notFound, s)
  | some id => remove persistOk s id

/-- `Store.AddManualService` (`store.go` lines 165-197): default target
host, synthetic id, name-availability check, then `Save`. -/
def addManualService (persistOk : Bool) (s : StoreState) (name : String)
    (port : Int) (targetHost : String) (now : Int) :
    Except StoreErr Unit × StoreState :=
  let host := if targetHost == "" then "127.0.0.1" else targetHost
  let id := "manual-" ++ name ++ "-" ++ host ++ "-" ++ toString port
  match alistLookup s.names name with
  | some _ => (.error .nameInUse, s)
  | none =>
    save persistOk s
      { id := id, name := name, port := port, targetHost := host, pid := 0,
        exePath := "manual", args := [], userDefined := true,
        isActive := false, lastSeen := now, keep := true, group := "",
        useTLS := false }

/-- One store operation with its arguments. -/
inductive StoreOp : Type
  | save (r : ServiceRecord)
  | updateName (id newName : String)
  | updateKeep (id : String) (keep : Bool)
  | remove (id : String)
  | removeByName (name : String)
  | addManual (name : String) (port : Int) (targetHost : String) (now : Int)
  deriving DecidableEq, Repr

/-- Run one operation; the `Bool` is the outcome its `persist` call would
have. -/
def applyOp (s : StoreState) : StoreOp × Bool → Except StoreErr Unit × StoreState
  | (.save r, pOk) => save pOk s r
  | (.updateName id n, pOk) => updateName pOk s id n
  | (.updateKeep id k, pOk) => updateKeep pOk s id k
  | (.remove id, pOk) => remove pOk s id
  | (.removeByName n, pOk) => removeByName pOk s n
  | (.addManual n p h t, pOk) => addManualService pOk s n p h t

/-- Run a sequence of operations. -/
def runOps (s : StoreState) : List (StoreOp × Bool) → StoreState
  | [] => s
  | op :: rest => runOps (applyOp s op).2 rest

/-! ## Blacklist store (`internal/storage/blacklist.go`) -/

/-- `storage.BlacklistEntry` (`blacklist.go` lines 18-23). -/
structure BlacklistEntry where
  id : String
  entryType : String
  value : String
  createdAt : Int
  deriving DecidableEq, Repr

/-- Errors of the blacklist-store operations. -/
inductive BlacklistErr : Type
  | invalidType
  | invalidPID
  | invalidPattern
  | idGenFailed
  | persistFailed
  | notFound
  deriving DecidableEq, Repr

/-- Go `strconv.Atoi` success (optional sign followed by at least one
digit; the out-of-range failure mode is not modelled). -/
def goAtoiOk (s : String) : Bool :=
  let t := if goStartsWith s "-" || goStartsWith s "+" then goDrop s 1 else s
  !t.data.isEmpty && t.data.all Char.isDigit

/-- `BlacklistStore.Add` (`blacklist.go` lines 77-119).  `regexCompiles`
stands for `regexp.Compile` succeeding, `idResult` for the `crypto/rand`
id generation, `persistOk` for the persist outcome; the entry is appended
before persisting and is not removed when persisting fails. -/
def blacklistAdd (regexCompiles : String → Bool) (idResult : Option String)
    (persistOk : Bool) (now : Int) (st : List BlacklistEntry)
    (entryType value : String) :
    Except BlacklistErr BlacklistEntry × List BlacklistEntry :=
  if entryType ≠ "pid" && entryType ≠ "path" && entryType ≠ "pattern" then
    (.error .invalidType, st)
  else if entryType == "pid" && !goAtoiOk value then (.error .invalidPID, st)
  else if entryType == "pattern" && !regexCompiles value then
    (.error .invalidPattern, st)
  else
    match idResult with
    | none => (.error .idGenFailed, st)
    | some id =>
      let entry : BlacklistEntry := ⟨id, entryType, value, now⟩
      if persistOk then (.ok entry, st ++ [entry])
      else (.error .persistFailed, st ++ [entry])

/-- `BlacklistStore.Remove` (`blacklist.go` lines 122-134): remove the
first entry with the given id and persist; the removal is kept even when
persisting fails. -/
def blacklistRemove (persistOk : Bool) :
    List BlacklistEntry → String →
      Except BlacklistErr Unit × List BlacklistEntry
  | [], _ => (.error .notFound, [])
  | e :: rest, id =>
    if e.id == id then
      (if persistOk then .ok () else .error .persistFailed, rest)
    else
      let r := blacklistRemove persistOk rest id
      (r.1, e :: r.2)

/-! ### Store invariants (claims C5 and C7) -/

/-- The structural invariant of a store state: both maps have distinct
keys, every record sits under its own id, and the name index maps every
record's name back to that record's id. -/
def storeInv (s : StoreState) : Prop :=
  keysNodup s.records ∧ keysNodup s.names ∧
  (∀ p ∈ s.records, p.2.id = p.1) ∧
  (∀ p ∈ s.records, alistLookup s.names p.2.name = some p.1)

/-- Every record's name carries the `.localhost` suffix. -/
def namesSuffixOK (s : StoreState) : Prop :=
  ∀ p ∈ s.records, goEndsWith p.2.name ".localhost" = true

/-- The side conditions under which an operation keeps the claimed
invariants: names handed to `Save` must be free (or bound to the same id)
and suffixed, names handed to `UpdateName` / `AddManualService` must be
suffixed (these two check availability themselves). -/
def opOK (s : StoreState) : StoreOp → Prop
  | .save r =>
    (alistLookup s.names r.name = none ∨
      alistLookup s.names r.name = some r.id) ∧
    goEndsWith r.name ".localhost" = true
  | .updateName _ newName => goEndsWith newName ".localhost" = true
  | .updateKeep _ _ => True
  | .remove _ => True
  | .removeByName _ => True
  | .addManual name _ _ _ => goEndsWith name ".localhost" = true

instance (s : StoreState) (op : StoreOp) : Decidable (opOK s op) := by
  cases op <;> simp only [opOK] <;> infer_instance

/-- All side conditions hold along a trace. -/
def goodTrace : StoreState → List (StoreOp × Bool) → Prop
  | _, [] => True
  | s, op :: rest => opOK s op.1 ∧ goodTrace (applyOp s op).2 rest

instance goodTraceDecidable :
    ∀ (s : StoreState) (ops : List (StoreOp × Bool)),
      Decidable (goodTrace s ops)
  | _, [] => .isTrue trivial
  | s, op :: rest =>
    haveI : Decidable (goodTrace (applyOp s op).2 rest) :=
      goodTraceDecidable _ rest
    inferInstanceAs (Decidable (_ ∧ _))

theorem storeInv_insert {records : List (String × ServiceRecord)}
    {names1 : List (String × String)} {K : String} {v : ServiceRecord}
    (hndR : keysNodup records) (hnd1 : keysNodup names1)
    (hid : ∀ p ∈ records, p.2.id = p.1) (hvid : v.id = K)
    (hlook1 : ∀ p ∈ records, p.1 ≠ K →
      alistLookup names1 p.2.name = some p.1)
    (hNoOther : ∀ p ∈ records, p.1 ≠ K → p.2.name ≠ v.name) :
    storeInv ⟨alistInsert records K v, alistInsert names1 v.name K⟩ := by
  refine ⟨keysNodup_alistInsert hndR K v,
    keysNodup_alistInsert hnd1 v.name K, ?_, ?_⟩
  · intro p hp
    rcases mem_alistInsert hndR hp with rfl | ⟨hm, _⟩
    · exact hvid
    · exact hid p hm
  · intro p hp
    rcases mem_alistInsert hndR hp with rfl | ⟨hm, hne⟩
    · simpa using alistLookup_insert_self names1 v.name K
    · have hneName : p.2.name ≠ v.name := hNoOther p hm hne
      rw [alistLookup_insert_other K hneName]
      exact hlook1 p hm hne

theorem suffix_insert {records : List (String × ServiceRecord)}
    {K : String} {v : ServiceRecord} (hndR : keysNodup records)
    (hS : ∀ p ∈ records, goEndsWith p.2.name ".localhost" = true)
    (hv : goEndsWith v.name ".localhost" = true) :
    ∀ p ∈ alistInsert records K v,
      goEndsWith p.2.name ".localhost" = true := by
  intro p hp
  rcases mem_alistInsert hndR hp with rfl | ⟨hm, _⟩
  · exact hv
  · exact hS p hm

theorem saveMut_preserves {s : StoreState} {r : ServiceRecord}
    (hInv : storeInv s) (hSfx : namesSuffixOK s)
    (hfree : alistLookup s.names r.name = none ∨
      alistLookup s.names r.name = some r.id)
    (hsfx : goEndsWith r.name ".localhost" = true) :
    storeInv (saveMut s r) ∧ namesSuffixOK (saveMut s r) := by
  obtain ⟨hndR, hndN, hid, hname⟩ := hInv
  have hNoOther : ∀ p ∈ s.records, p.1 ≠ r.id → p.2.name ≠ r.name := by
    intro p hp hne heq
    have hl := hname p hp
    rw [heq] at hl
    rcases hfree with hf | hf
    · rw [hf] at hl; cases hl
    · rw [hf] at hl
      exact hne (Option.some.inj hl).symm
  unfold saveMut
  cases hold : alistLookup s.records r.id with
  | none =>
    refine ⟨storeInv_insert hndR hndN hid rfl ?_ hNoOther, ?_⟩
    · intro p hp _
      exact hname p hp
    · exact suffix_insert hndR hSfx hsfx
  | some old =>
    have holdmem : (r.id, old) ∈ s.records := alistLookup_mem hold
    have holdname : alistLookup s.names old.name = some r.id :=
      hname (r.id, old) holdmem
    refine ⟨storeInv_insert hndR (keysNodup_alistErase hndN old.name)
      hid rfl ?_ hNoOther, ?_⟩
    · intro p hp hne
      have hpename : p.2.name ≠ old.name := by
        intro heq
        have hl := hname p hp
        rw [heq, holdname] at hl
        exact hne (Option.some.inj hl).symm
      rw [alistLookup_erase_other hpename]
      exact hname p hp
    · exact suffix_insert hndR hSfx hsfx

theorem updateNameApply_preserves {s : StoreState} {id newName : String}
    {record : ServiceRecord} (b : Bool) (hInv : storeInv s)
    (hSfx : namesSuffixOK s) (hrecmem : (id, record) ∈ s.records)
    (hfree : alistLookup s.names newName = none ∨
      alistLookup s.names newName = some id)
    (hsfx : goEndsWith newName ".localhost" = true) :
    storeInv (updateNameApply b s id record newName).2 ∧
      namesSuffixOK (updateNameApply b s id record newName).2 := by
  obtain ⟨hndR, hndN, hid, hname⟩ := hInv
  have hrecname : alistLookup s.names record.name = some id :=
    hname (id, record) hrecmem
  have hNoOther : ∀ p ∈ s.records, p.1 ≠ id → p.2.name ≠ newName := by
    intro p hp hne heq
    have hl := hname p hp
    rw [heq] at hl
    rcases hfree with hf | hf
    · rw [hf] at hl; cases hl
    · rw [hf] at hl
      exact hne (Option.some.inj hl).symm
  unfold updateNameApply
  refine ⟨storeInv_insert hndR (keysNodup_alistErase hndN record.name)
    hid (hid (id, record) hrecmem) ?_ hNoOther, ?_⟩
  · intro p hp hne
    have hpename : p.2.name ≠ record.name := by
      intro heq
      have hl := hname p hp
      rw [heq, hrecname] at hl
      exact hne (Option.some.inj hl).symm
    rw [alistLookup_erase_other hpename]
    exact hname p hp
  · exact suffix_insert hndR hSfx hsfx

theorem updateKeep_preserves {s : StoreState} (b : Bool) (id : String)
    (keep : Bool) (hInv : storeInv s) (hSfx : namesSuffixOK s) :
    storeInv (updateKeep b s id keep).2 ∧
      namesSuffixOK (updateKeep b s id keep).2 := by
  obtain ⟨hndR, hndN, hid, hname⟩ := hInv
  unfold updateKeep
  cases hrec : alistLookup s.records id with
  | none => exact ⟨⟨hndR, hndN, hid, hname⟩, hSfx⟩
  | some record =>
    have hrecmem : (id, record) ∈ s.records := alistLookup_mem hrec
    constructor
    · refine ⟨keysNodup_alistInsert hndR id _, hndN, ?_, ?_⟩
      · intro p hp
        rcases mem_alistInsert hndR hp with rfl | ⟨hm, _⟩
        · exact hid (id, record) hrecmem
        · exact hid p hm
      · intro p hp
        rcases mem_alistInsert hndR hp with rfl | ⟨hm, _⟩
        · exact hname (id, record) hrecmem
        · exact hname p hm
    · intro p hp
      rcases mem_alistInsert hndR hp with rfl | ⟨hm, _⟩
      · exact hSfx (id, record) hrecmem
      · exact hSfx p hm

theorem remove_preserves {s : StoreState} (b : Bool) (id : String)
    (hInv : storeInv s) (hSfx : namesSuffixOK s) :
    storeInv (remove b s id).2 ∧ namesSuffixOK (remove b s id).2 := by
  obtain ⟨hndR, hndN, hid, hname⟩ := hInv
  unfold remove
  cases hrec : alistLookup s.records id with
  | none => exact ⟨⟨hndR, hndN, hid, hname⟩, hSfx⟩
  | some record =>
    have hrecmem : (id, record) ∈ s.records := alistLookup_mem hrec
    have hrecname : alistLookup s.names record.name = some id :=
      hname (id, record) hrecmem
    constructor
    · refine ⟨keysNodup_alistErase hndR id,
        keysNodup_alistErase hndN record.name, ?_, ?_⟩
      · intro p hp
        exact hid p (mem_alistErase hp).1
      · intro p hp
        obtain ⟨hm, hne⟩ := mem_alistErase hp
        have hpename : p.2.name ≠ record.name := by
          intro heq
          have hl := hname p hm
          rw [heq, hrecname] at hl
          exact hne (Option.some.inj hl).symm
        rw [alistLookup_erase_other hpename]
        exact hname p hm
    · intro p hp
      exact hSfx p (mem_alistErase hp).1

theorem applyOp_preserves {s : StoreState} (op : StoreOp) (b : Bool)
    (hInv : storeInv s) (hSfx : namesSuffixOK s) (hOK : opOK s op) :
    storeInv (applyOp s (op, b)).2 ∧ namesSuffixOK (applyOp s (op, b)).2 := by
  cases op with
  | save r =>
    exact saveMut_preserves hInv hSfx hOK.1 hOK.2
  | updateName id newName =>
    simp only [applyOp, updateName]
    cases hrec : alistLookup s.records id with
    | none => exact ⟨hInv, hSfx⟩
    | some record =>
      have hrecmem : (id, record) ∈ s.records := alistLookup_mem hrec
      dsimp only
      cases hnm : alistLookup s.names newName with
      | none =>
        exact updateNameApply_preserves b hInv hSfx hrecmem (Or.inl hnm) hOK
      | some e =>
        dsimp only
        by_cases he : e ≠ id
        · rw [if_pos he]
          exact ⟨hInv, hSfx⟩
        · rw [if_neg he]
          push_neg at he
          rw [he] at hnm
          exact updateNameApply_preserves b hInv hSfx hrecmem (Or.inr hnm) hOK
  | updateKeep id keep =>
    exact updateKeep_preserves b id keep hInv hSfx
  | remove id =>
    exact remove_preserves b id hInv hSfx
  | removeByName name =>
    simp only [applyOp, removeByName]
    cases hnm : alistLookup s.names name with
    | none => exact ⟨hInv, hSfx⟩
    | some id => exact remove_preserves b id hInv hSfx
  | addManual name port targetHost now =>
    simp only [applyOp, addManualService]
    cases hnm : alistLookup s.names name with
    | some e => exact ⟨hInv, hSfx⟩
    | none =>
      exact saveMut_preserves hInv hSfx (Or.inl hnm) hOK

theorem runOps_preserves :
    ∀ (ops : List (StoreOp × Bool)) (s : StoreState), storeInv s →
      namesSuffixOK s → goodTrace s ops →
      storeInv (runOps s ops) ∧ namesSuffixOK (runOps s ops)
  | [], _, h1, h2, _ => ⟨h1, h2⟩
  | (op, b) :: rest, s, h1, h2, hg => by
    obtain ⟨hok, hrest⟩ := hg
    obtain ⟨h1', h2'⟩ := applyOp_preserves op b h1 h2 hok
    exact runOps_preserves rest _ h1' h2' hrest

/-- A concrete discovered-service record used in concrete store runs. -/
def demoRecord (id name : String) : ServiceRecord :=
  ⟨id, name, 3000, "127.0.0.1", 42, "/usr/local/bin/app", [], false, true,
    0, false, "", false⟩

/-- C5 counterexample: the claimed invariant fails on reachable states.
`AddManualService("myapp", 3000, "")` stores a record whose name `myapp`
does not end in `.localhost` (no suffix is enforced), and two `Save`s of
records with different ids but the same name leave two distinct records
carrying the same name. -/
theorem c5_counterexample :
    (∃ p ∈ (runOps emptyStore
        [(.addManual "myapp" 3000 "" 0, true)]).records,
      goEndsWith p.2.name ".localhost" = false) ∧
    (∃ p ∈ (runOps emptyStore
        [(.save (demoRecord "a" "app.localhost"), true),
         (.save (demoRecord "b" "app.localhost"), true)]).records,
      ∃ q ∈ (runOps emptyStore
        [(.save (demoRecord "a" "app.localhost"), true),
         (.save (demoRecord "b" "app.localhost"), true)]).records,
      p ≠ q ∧ p.2.name = q.2.name) := by
  decide

/-- C5 (amended): after any sequence of store operations starting from the
empty store in which every name handed to `Save` ends in `.localhost` and
is not already bound to a different id, and every name handed to
`UpdateName` or `AddManualService` ends in `.localhost` (those two check
availability themselves), every pair of distinct records has distinct
names and every record's name ends in `.localhost`.  Unconditionally,
`Save` does not enforce either property (see the counterexample). -/
theorem c5_store_invariants (ops : List (StoreOp × Bool))
    (hgood : goodTrace emptyStore ops) :
    (∀ p ∈ (runOps emptyStore ops).records,
      ∀ q ∈ (runOps emptyStore ops).records, p ≠ q → p.2.name ≠ q.2.name) ∧
    (∀ p ∈ (runOps emptyStore ops).records,
      goEndsWith p.2.name ".localhost" = true) := by
  have hinit : storeInv emptyStore := by
    refine ⟨List.nodup_nil, List.nodup_nil, ?_, ?_⟩ <;> intro p hp <;>
      cases hp
  have hsfx0 : namesSuffixOK emptyStore := by intro p hp; cases hp
  obtain ⟨⟨hndR, hndN, hid, hname⟩, hS⟩ :=
    runOps_preserves ops emptyStore hinit hsfx0 hgood
  refine ⟨?_, hS⟩
  intro p hp q hq hne heq
  have h1 := hname p hp
  have h2 := hname q hq
  rw [heq, h2] at h1
  exact hne (eq_of_mem_keysNodup hndR hp hq (Option.some.inj h1).symm)

/-- C5 witness: a concrete well-behaved trace — a manual add, a save of a
fresh record and a remove whose persist fails — satisfies the trace
conditions, and both invariants hold for the resulting store. -/
theorem c5_store_invariants_witness :
    (∀ p ∈ (runOps emptyStore
        [(.addManual "web.localhost" 8080 "" 5, true),
         (.save (demoRecord "x1" "db.localhost"), true),
         (.remove "x1", false)]).records,
      ∀ q ∈ (runOps emptyStore
        [(.addManual "web.localhost" 8080 "" 5, true),
         (.save (demoRecord "x1" "db.localhost"), true),
         (.remove "x1", false)]).records, p ≠ q → p.2.name ≠ q.2.name) ∧
    (∀ p ∈ (runOps emptyStore
        [(.addManual "web.localhost" 8080 "" 5, true),
         (.save (demoRecord "x1" "db.localhost"), true),
         (.remove "x1", false)]).records,
      goEndsWith p.2.name ".localhost" = true) :=
  c5_store_invariants
    [(.addManual "web.localhost" 8080 "" 5, true),
     (.save (demoRecord "x1" "db.localhost"), true),
     (.remove "x1", false)] (by decide)

/-! ### Persist-failure behaviour (claim C7) -/

theorem applyOp_state_independent (s : StoreState) (op : StoreOp)
    (b : Bool) : (applyOp s (op, b)).2 = (applyOp s (op, true)).2 := by
  cases op with
  | save r => rfl
  | updateName id n =>
    simp only [applyOp, updateName]
    cases alistLookup s.records id with
    | none => rfl
    | some record =>
      dsimp only
      cases alistLookup s.names n with
      | none => rfl
      | some e =>
        dsimp only
        by_cases he : e ≠ id
        · rw [if_pos he, if_pos he]
        · rw [if_neg he, if_neg he]
          rfl
  | updateKeep id k =>
    simp only [applyOp, updateKeep]
    cases alistLookup s.records id with
    | none => rfl
    | some record => rfl
  | remove id =>
    simp only [applyOp, remove]
    cases alistLookup s.records id with
    | none => rfl
    | some record => rfl
  | removeByName n =>
    simp only [applyOp, removeByName]
    cases alistLookup s.names n with
    | none => rfl
    | some id =>
      dsimp only
      unfold remove
      cases alistLookup s.records id with
      | none => rfl
      | some r => rfl
  | addManual n p h t =>
    simp only [applyOp, addManualService]
    cases alistLookup s.names n with
    | some e => rfl
    | none => rfl

theorem applyOp_persist_error (s : StoreState) (op : StoreOp)
    (h : (applyOp s (op, true)).1 = .ok ()) :
    (applyOp s (op, false)).1 = .error .persistFailed := by
  cases op with
  | save r => rfl
  | updateName id n =>
    simp only [applyOp, updateName] at h ⊢
    cases hx : alistLookup s.records id with
    | none => rw [hx] at h; cases h
    | some record =>
      rw [hx] at h
      dsimp only at h ⊢
      cases hy : alistLookup s.names n with
      | none => rfl
      | some e =>
        rw [hy] at h
        dsimp only at h ⊢
        by_cases he : e ≠ id
        · rw [if_pos he] at h
          cases h
        · rw [if_neg he]
          rfl
  | updateKeep id k =>
    simp only [applyOp, updateKeep] at h ⊢
    cases hx : alistLookup s.records id with
    | none => rw [hx] at h; cases h
    | some record => rfl
  | remove id =>
    simp only [applyOp, remove] at h ⊢
    cases hx : alistLookup s.records id with
    | none => rw [hx] at h; cases h
    | some record => rfl
  | removeByName n =>
    simp only [applyOp, removeByName] at h ⊢
    cases hx : alistLookup s.names n with
    | none => rw [hx] at h; cases h
    | some id =>
      rw [hx] at h
      dsimp only at h ⊢
      unfold remove at h ⊢
      cases hy : alistLookup s.records id with
      | none => rw [hy] at h; cases h
      | some r => rfl
  | addManual n p hh t =>
    simp only [applyOp, addManualService] at h ⊢
    cases hx : alistLookup s.names n with
    | some e => rw [hx] at h; cases h
    | none => rfl

theorem blacklistAdd_state_independent (rc : String → Bool)
    (idr : Option String) (now : Int) (st : List BlacklistEntry)
    (t v : String) (b : Bool) :
    (blacklistAdd rc idr b now st t v).2 =
      (blacklistAdd rc idr true now st t v).2 := by
  unfold blacklistAdd
  repeat' split
  all_goals rfl

theorem blacklistAdd_persist_error (rc : String → Bool)
    (idr : Option String) (now : Int) (st : List BlacklistEntry)
    (t v : String) {e : BlacklistEntry}
    (h : (blacklistAdd rc idr true now st t v).1 = .ok e) :
    (blacklistAdd rc idr false now st t v).1 = .error .persistFailed := by
  unfold blacklistAdd at h ⊢
  split at h
  next h1 => cases h
  next h1 =>
    rw [if_neg h1]
    split at h
    next h2 => cases h
    next h2 =>
      rw [if_neg h2]
      split at h
      next h3 => cases h
      next h3 =>
        rw [if_neg h3]
        cases idr with
        | none => cases h
        | some idv => rfl

theorem blacklistRemove_state_independent (b : Bool) :
    ∀ (st : List BlacklistEntry) (id : String),
      (blacklistRemove b st id).2 = (blacklistRemove true st id).2
  | [], _ => rfl
  | e :: rest, id => by
    unfold blacklistRemove
    by_cases he : (e.id == id) = true
    · rw [if_pos he, if_pos he]
    · rw [if_neg he, if_neg he]
      show e :: (blacklistRemove b rest id).2 =
        e :: (blacklistRemove true rest id).2
      rw [blacklistRemove_state_independent b rest id]

theorem blacklistRemove_persist_error :
    ∀ (st : List BlacklistEntry) (id : String),
      (blacklistRemove true st id).1 = .ok () →
      (blacklistRemove false st id).1 = .error .persistFailed
  | [], _, h => by cases h
  | e :: rest, id, h => by
    unfold blacklistRemove at *
    by_cases he : (e.id == id) = true
    · rw [if_pos he]
      rfl
    · rw [if_neg he] at h
      rw [if_neg he]
      show (blacklistRemove false rest id).1 = .error .persistFailed
      exact blacklistRemove_persist_error rest id h

/-- C7 counterexample: a `Save` whose persist fails returns the persist
error but the record stays in the in-memory maps (the state differs from
the pre-call empty store), and a blacklist `Add` whose persist fails
returns the persist error with the entry still appended — no operation
rolls the in-memory state back. -/
theorem c7_counterexample :
    (applyOp emptyStore (.save (demoRecord "a" "app.localhost"), false)).1 =
        .error .persistFailed ∧
      (applyOp emptyStore
          (.save (demoRecord "a" "app.localhost"), false)).2 ≠ emptyStore ∧
      (blacklistAdd (fun _ => true) (some "id1") false 0 [] "path"
          "/usr/sbin/cupsd").1 = .error .persistFailed ∧
      (blacklistAdd (fun _ => true) (some "id1") false 0 [] "path"
          "/usr/sbin/cupsd").2 ≠ [] := by
  decide

/-- C7 (amended): when persisting fails, every mutating store operation
(`Save`, `UpdateName`, `UpdateKeep`, `Remove`, `RemoveByName`,
`AddManualService`) and every mutating blacklist operation (`Add`,
`Remove`) returns the persist error to the caller, but the in-memory
state keeps the mutation — it equals the state the same call produces
when persisting succeeds, so memory is NOT rolled back to match disk. -/
theorem c7_persist_failure_behaviour :
    (∀ (s : StoreState) (op : StoreOp) (b : Bool),
      (applyOp s (op, b)).2 = (applyOp s (op, true)).2 ∧
      ((applyOp s (op, true)).1 = .ok () →
        (applyOp s (op, false)).1 = .error .persistFailed)) ∧
    (∀ (rc : String → Bool) (idr : Option String) (now : Int)
        (st : List BlacklistEntry) (t v : String) (b : Bool),
      (blacklistAdd rc idr b now st t v).2 =
        (blacklistAdd rc idr true now st t v).2 ∧
      (∀ e, (blacklistAdd rc idr true now st t v).1 = .ok e →
        (blacklistAdd rc idr false now st t v).1 =
          .error .persistFailed)) ∧
    (∀ (st : List BlacklistEntry) (id : String) (b : Bool),
      (blacklistRemove b st id).2 = (blacklistRemove true st id).2 ∧
      ((blacklistRemove true st id).1 = .ok () →
        (blacklistRemove false st id).1 = .error .persistFailed)) := by
  refine ⟨fun s op b => ⟨?_, ?_⟩, fun rc idr now st t v b => ⟨?_, ?_⟩,
    fun st id b => ⟨?_, ?_⟩⟩
  · exact applyOp_state_independent s op b
  · exact applyOp_persist_error s op
  · exact blacklistAdd_state_independent rc idr now st t v b
  · exact fun e he => blacklistAdd_persist_error rc idr now st t v he
  · exact blacklistRemove_state_independent b st id
  · exact blacklistRemove_persist_error st id

/-- C7 witness: the failed-persist `Save` of a concrete record mutates the
state exactly as the successful one and surfaces the persist error. -/
theorem c7_persist_failure_behaviour_witness :
    (applyOp emptyStore (.save (demoRecord "w" "w.localhost"), false)).2 =
      (applyOp emptyStore (.save (demoRecord "w" "w.localhost"), true)).2 ∧
    (applyOp emptyStore (.save (demoRecord "w" "w.localhost"), false)).1 =
      .error .persistFailed :=
  ⟨(c7_persist_failure_behaviour.1 emptyStore
      (.save (demoRecord "w" "w.localhost")) false).1,
   (c7_persist_failure_behaviour.1 emptyStore
      (.save (demoRecord "w" "w.localhost")) false).2 (by decide)⟩

/-! ## Persistence as file operations (claim C6)

`Store.persist` (`store.go` lines 220-228) performs a single
`os.WriteFile(path, data, 0666)` on the target path;
`BlacklistStore.persist` (`blacklist.go` lines 258-295) creates a sibling
temp file, writes, chmods, closes and renames it over the target.  A file
system is a map from paths to contents; an interrupted run of a sequence
of operations is modelled by `midStates`: the states before each
operation, plus — for write operations — states holding any strict prefix
of the written data (a torn write).  Renames are atomic at the OS level:
before/after only. -/

/-- A file system: path to contents. -/
abbrev FS : Type := String → Option String

/-- Point update of a file system. -/
def fsUpdate (fs : FS) (p : String) (v : Option String) : FS :=
  fun q => if q == p then v else fs q

/-- The file operations the two persist implementations perform. -/
inductive FsOp : Type
  | writeTarget (path : String) (data : String)
  | createTemp (tmp : String)
  | writeTemp (tmp : String) (data : String)
  | chmodTemp (tmp : String)
  | closeTemp (tmp : String)
  | renameTemp (tmp : String) (path : String)

/-- The effect of one completed operation. -/
def writeEffect (fs : FS) : FsOp → FS
  | .writeTarget p d => fsUpdate fs p (some d)
  | .createTemp t => fsUpdate fs t (some "")
  | .writeTemp t d => fsUpdate fs t (some d)
  | .chmodTemp _ => fs
  | .closeTemp _ => fs
  | .renameTemp t p => fsUpdate (fsUpdate fs p (fs t)) t none

/-- All strict prefixes of a string (possible torn-write contents). -/
def strictPrefixes (s : String) : List String :=
  (List.range s.data.length).map fun n => ⟨s.data.take n⟩

/-- States reachable by crashing in the middle of one operation: a write
can leave any strict prefix of its data; create/chmod/close/rename are
atomic (covered by the before/after states). -/
def partialStates (fs : FS) : FsOp → List FS
  | .writeTarget p d => (strictPrefixes d).map fun pre => fsUpdate fs p (some pre)
  | .writeTemp t d => (strictPrefixes d).map fun pre => fsUpdate fs t (some pre)
  | _ => []

/-- Every file-system state observable while a sequence of operations
runs, including the final one. -/
def midStates (fs : FS) : List FsOp → List FS
  | [] => [fs]
  | op :: rest => fs :: partialStates fs op ++ midStates (writeEffect fs op) rest

/-- `Store.persist`: one direct write of the target file. -/
def storePersistOps (path data : String) : List FsOp :=
  [.writeTarget path data]

/-- `BlacklistStore.persist`: temp-file creation, write, chmod, close,
rename over the target. -/
def blacklistPersistOps (path tmp data : String) : List FsOp :=
  [.createTemp tmp, .writeTemp tmp data, .chmodTemp tmp, .closeTemp tmp,
    .renameTemp tmp path]

/-- The claim's atomicity property for a persist running on `fs0`: at
every observable point the target holds either its previous content or
the full new data. -/
def atomicFor (fs0 : FS) (ops : List FsOp) (path data : String) : Prop :=
  ∀ fs' ∈ midStates fs0 ops, fs' path = fs0 path ∨ fs' path = some data

/-- C6 counterexample: the service store's persist is not atomic — while
`os.WriteFile("services.json", "[]")` runs on an empty file system, an
observable state holds the strict prefix `"["`, which is neither the old
content (absent) nor the new data. -/
theorem c6_counterexample :
    ¬ atomicFor (fun _ => none)
        (storePersistOps "services.json" "[]") "services.json" "[]" := by
  intro h
  have hmem : fsUpdate (fun _ => none) "services.json" (some "[") ∈
      midStates (fun _ => none) (storePersistOps "services.json" "[]") :=
    List.Mem.tail _ (List.Mem.tail _ (List.Mem.head _))
  rcases h _ hmem with h1 | h1
  · have : (some "[" : Option String) = none := by
      simpa [fsUpdate] using h1
    cases this
  · have : ("[" : String) = "[]" := by
      simpa [fsUpdate] using h1
    exact absurd this (by decide)

/-- C6 (amended): the blacklist store's persist is atomic — for every
file system, target path, distinct temp path and data, every state
observable during `BlacklistStore.persist` has the target holding either
its old content or the full new data — while the service store's persist
is a single direct write of the target, during which a state holding a
strict prefix of the data (for non-empty data, the empty file) is
observable. -/
theorem c6_persistence_characterisation (fs : FS)
    (path tmp data : String) (hne : tmp ≠ path) (hdata : data ≠ "") :
    (∀ fs' ∈ midStates fs (blacklistPersistOps path tmp data),
      fs' path = fs path ∨ fs' path = some data) ∧
    (∃ fs' ∈ midStates fs (storePersistOps path data),
      fs' path = some "") := by
  have hpt : (path == tmp) = false :=
    beq_eq_false_iff_ne.mpr fun h => hne h.symm
  constructor
  · intro fs' hmem
    simp only [blacklistPersistOps, midStates, partialStates, writeEffect,
      List.nil_append, List.cons_append, List.mem_cons, List.mem_append,
      List.mem_map, List.mem_singleton, List.not_mem_nil, false_or,
      or_false] at hmem
    rcases hmem with rfl | rfl | ⟨pre, -, rfl⟩ | rfl | rfl | rfl | rfl <;>
      simp [fsUpdate, hpt]
  · have hlen : 0 < data.data.length := by
      have : data.data ≠ [] := by
        intro hc
        exact hdata (by cases data with | mk l => simp only at hc; rw [hc])
      exact List.length_pos.mpr this
    have hpre : ("" : String) ∈ strictPrefixes data := by
      simp only [strictPrefixes, List.mem_map]
      exact ⟨0, List.mem_range.mpr hlen, rfl⟩
    have hmem : fsUpdate fs path (some "") ∈
        midStates fs (storePersistOps path data) := by
      simp only [storePersistOps, midStates, partialStates]
      exact List.mem_cons_of_mem _
        (List.mem_append_left _ (List.mem_map_of_mem _ hpre))
    exact ⟨fsUpdate fs path (some ""), hmem, by simp [fsUpdate]⟩

/-- C6 witness: concrete instantiation — persisting `"[]"` over
`blacklist.json` via the temp file is atomic at every observable state,
and the direct store write to `services.json` passes through an
empty-file state. -/
theorem c6_persistence_characterisation_witness :
    (∀ fs' ∈ midStates (fun _ => none)
        (blacklistPersistOps "blacklist.json" "blacklist-1.tmp" "[]"),
      fs' "blacklist.json" = (fun _ => none : FS) "blacklist.json" ∨
        fs' "blacklist.json" = some "[]") ∧
    (∃ fs' ∈ midStates (fun _ => none)
        (storePersistOps "blacklist.json" "[]"),
      fs' "blacklist.json" = some "") :=
  c6_persistence_characterisation (fun _ => none) "blacklist.json"
    "blacklist-1.tmp" "[]" (by decide) (by decide)

/-! ## Certificate authority (`ca.go`: `NewCA`, `IsInitialized`, `Init`)

The CA material (parsed certificates and keys) is modelled by the PEM
strings it was loaded from or generated as; `parseOk` stands for
`parseCertAndKey` succeeding, and a `FreshCAMaterial` supplies the output
of the ECDSA generation and X.509 self-signing performed by `Init`.
`Init`'s four `writeFileAtomic` calls are modelled on their success path
as updates of the file-system map. -/

/-- `filepath.Join(storePath, name)`. -/
def caFilePath (sp name : String) : String := sp ++ "/" ++ name

/-- The in-memory fields of `ca.CA`. -/
structure CAState where
  rootCert : Option String
  rootKey : Option String
  interCert : Option String
  interKey : Option String
  storePath : String
  deriving DecidableEq, Repr

/-- The load step of `NewCA` (`ca.go` lines 46-67): if any of the four
reads failed the CA is returned uninitialised without error; otherwise
both pairs are parsed and a parse failure is an error. -/
def caLoad (parseOk : String → String → Bool) (sp : String) :
    Option String → Option String → Option String → Option String →
      Except Unit CAState
  | some a, some b, some c, some d =>
    if parseOk a b && parseOk c d then
      .ok ⟨some a, some b, some c, some d, sp⟩
    else .error ()
  | _, _, _, _ => .ok ⟨none, none, none, none, sp⟩

/-- `ca.NewCA` (`ca.go` lines 34-68), after the store directory exists. -/
def newCA (parseOk : String → String → Bool) (fs : FS) (sp : String) :
    Except Unit CAState :=
  caLoad parseOk sp (fs (caFilePath sp "root_ca.pem"))
    (fs (caFilePath sp "root_ca.key"))
    (fs (caFilePath sp "intermediate.pem"))
    (fs (caFilePath sp "intermediate.key"))

/-- `CA.IsInitialized` (`ca.go` lines 71-74). -/
def isInitialized (ca : CAState) : Bool :=
  ca.rootCert.isSome && ca.rootKey.isSome &&
    ca.interCert.isSome && ca.interKey.isSome

/-- The freshly generated root and intermediate material `Init` produces
(ECDSA generation and signing are outside the program text). -/
structure FreshCAMaterial where
  rootCertPEM : String
  rootKeyPEM : String
  interCertPEM : String
  interKeyPEM : String
  deriving DecidableEq, Repr

/-- `CA.persist` (`ca.go` lines 273-287): write all four material files
(atomic writes, success path). -/
def caPersist (sp : String) (m : FreshCAMaterial) (fs : FS) : FS :=
  fsUpdate (fsUpdate (fsUpdate (fsUpdate fs
    (caFilePath sp "root_ca.pem") (some m.rootCertPEM))
    (caFilePath sp "root_ca.key") (some m.rootKeyPEM))
    (caFilePath sp "intermediate.pem") (some m.interCertPEM))
    (caFilePath sp "intermediate.key") (some m.interKeyPEM)

/-- `CA.Init` (`ca.go` lines 78-163): refuse when already initialised;
otherwise generate both tiers, persist all four files and set the fields. -/
def caInit (ca : CAState) (m : FreshCAMaterial) (fs : FS) :
    Except Unit (CAState × FS) :=
  if isInitialized ca then .error ()
  else
    .ok ({ ca with
            rootCert := some m.rootCertPEM
            rootKey := some m.rootKeyPEM
            interCert := some m.interCertPEM
            interKey := some m.interKeyPEM },
      caPersist ca.storePath m fs)

theorem caFilePath_ne (sp : String) {a b : String} (hne : a ≠ b) :
    caFilePath sp a ≠ caFilePath sp b := by
  intro h
  unfold caFilePath at h
  have h2 : (sp ++ "/").data ++ a.data = (sp ++ "/").data ++ b.data := by
    rw [← String.data_append, ← String.data_append, h]
  have h3 := List.append_cancel_left h2
  apply hne
  cases a
  cases b
  simp only at h3
  rw [h3]

/-- C10: when some but not all of the four CA material files are readable,
`NewCA` succeeds with an uninitialised CA, and a subsequent `Init` does
not refuse: it produces an initialised CA and overwrites all four files
with the freshly generated material, replacing whatever root material
survived on disk. -/
theorem c10_newCA_partial_then_init (parseOk : String → String → Bool)
    (fs : FS) (sp : String) (m : FreshCAMaterial)
    (hsome : (fs (caFilePath sp "root_ca.pem")).isSome = true ∨
      (fs (caFilePath sp "root_ca.key")).isSome = true ∨
      (fs (caFilePath sp "intermediate.pem")).isSome = true ∨
      (fs (caFilePath sp "intermediate.key")).isSome = true)
    (hnotall : ¬((fs (caFilePath sp "root_ca.pem")).isSome = true ∧
      (fs (caFilePath sp "root_ca.key")).isSome = true ∧
      (fs (caFilePath sp "intermediate.pem")).isSome = true ∧
      (fs (caFilePath sp "intermediate.key")).isSome = true)) :
    ∃ ca, newCA parseOk fs sp = .ok ca ∧ isInitialized ca = false ∧
      ∃ ca' fs', caInit ca m fs = .ok (ca', fs') ∧
        isInitialized ca' = true ∧
        fs' (caFilePath sp "root_ca.pem") = some m.rootCertPEM ∧
        fs' (caFilePath sp "root_ca.key") = some m.rootKeyPEM ∧
        fs' (caFilePath sp "intermediate.pem") = some m.interCertPEM ∧
        fs' (caFilePath sp "intermediate.key") = some m.interKeyPEM := by
  have hload : newCA parseOk fs sp = .ok ⟨none, none, none, none, sp⟩ := by
    unfold newCA
    cases h1 : fs (caFilePath sp "root_ca.pem") <;>
      cases h2 : fs (caFilePath sp "root_ca.key") <;>
      cases h3 : fs (caFilePath sp "intermediate.pem") <;>
      cases h4 : fs (caFilePath sp "intermediate.key") <;>
      simp_all [caLoad]
  refine ⟨⟨none, none, none, none, sp⟩, hload, rfl, ?_⟩
  have hne1 := beq_eq_false_iff_ne.mpr
    (caFilePath_ne sp (show "root_ca.pem" ≠ "intermediate.key" by decide))
  have hne2 := beq_eq_false_iff_ne.mpr
    (caFilePath_ne sp (show "root_ca.pem" ≠ "intermediate.pem" by decide))
  have hne3 := beq_eq_false_iff_ne.mpr
    (caFilePath_ne sp (show "root_ca.pem" ≠ "root_ca.key" by decide))
  have hne4 := beq_eq_false_iff_ne.mpr
    (caFilePath_ne sp (show "root_ca.key" ≠ "intermediate.key" by decide))
  have hne5 := beq_eq_false_iff_ne.mpr
    (caFilePath_ne sp (show "root_ca.key" ≠ "intermediate.pem" by decide))
  have hne6 := beq_eq_false_iff_ne.mpr
    (caFilePath_ne sp (show "intermediate.pem" ≠ "intermediate.key" by decide))
  refine ⟨_, _, rfl, rfl, ?_, ?_, ?_, ?_⟩ <;>
    simp [caInit, caPersist, fsUpdate, hne1, hne2, hne3, hne4, hne5, hne6]

/-- C10 witness: a store directory holding only a stale `root_ca.pem`
gives an uninitialised CA whose `Init` regenerates and overwrites
everything. -/
theorem c10_newCA_partial_then_init_witness :
    ∃ ca, newCA (fun _ _ => true)
        (fun p => if p == "store/root_ca.pem" then some "OLDROOT" else none)
        "store" = .ok ca ∧ isInitialized ca = false ∧
      ∃ ca' fs', caInit ca ⟨"R", "RK", "I", "IK"⟩
          (fun p => if p == "store/root_ca.pem" then some "OLDROOT"
            else none) = .ok (ca', fs') ∧
        isInitialized ca' = true ∧
        fs' (caFilePath "store" "root_ca.pem") = some "R" ∧
        fs' (caFilePath "store" "root_ca.key") = some "RK" ∧
        fs' (caFilePath "store" "intermediate.pem") = some "I" ∧
        fs' (caFilePath "store" "intermediate.key") = some "IK" :=
  c10_newCA_partial_then_init (fun _ _ => true)
    (fun p => if p == "store/root_ca.pem" then some "OLDROOT" else none)
    "store" ⟨"R", "RK", "I", "IK"⟩ (by decide) (by decide)

/-! ## Name sanitisation (`internal/naming/names.go`, `SanitizeName`)

`SanitizeName` lower-cases, replaces every run of characters outside
`[a-z0-9]` with a single hyphen (the regex `[^a-z0-9]+`), trims hyphens
from both ends, substitutes `app` for an empty result and truncates to 50
characters (bytes; at that point the string is pure ASCII). -/

/-- A character the regex `[^a-z0-9]` keeps. -/
def isKeepChar (c : Char) : Bool :=
  ('a' ≤ c && c ≤ 'z') || ('0' ≤ c && c ≤ '9')

mutual

/-- `regexp.MustCompile("[^a-z0-9]+").ReplaceAllString(name, "-")` on a
char list: runs of non-kept characters become a single `'-'`. -/
def collapseRuns : List Char → List Char
  | [] => []
  | c :: cs => if isKeepChar c then c :: collapseRuns cs else '-' :: skipRun cs

/-- Skip the remainder of a non-kept run. -/
def skipRun : List Char → List Char
  | [] => []
  | c :: cs => if isKeepChar c then c :: collapseRuns cs else skipRun cs

end

/-- Remove a trailing run of hyphens (the right half of
`strings.Trim(name, "-")`). -/
def dropTrailingHyphens : List Char → List Char
  | [] => []
  | c :: cs =>
    match dropTrailingHyphens cs with
    | [] => if c = '-' then [] else [c]
    | d :: ds => c :: d :: ds

/-- `SanitizeName` after lower-casing, on the char list. -/
def sanitizeCore (l : List Char) : List Char :=
  let replaced := collapseRuns l
  let trimmed := dropTrailingHyphens (replaced.dropWhile fun c => c = '-')
  let ensured := if trimmed = [] then "app".data else trimmed
  if ensured.length > 50 then ensured.take 50 else ensured

/-- `naming.SanitizeName` (`names.go` lines 224-246). -/
def sanitizeName (name : String) : String :=
  ⟨sanitizeCore (goToLower name).data⟩

/-! ### Structure of `sanitizeCore` output -/

/-- No two adjacent hyphens. -/
def noDD : List Char → Prop
  | [] => True
  | [_] => True
  | a :: b :: rest => ¬(a = '-' ∧ b = '-') ∧ noDD (b :: rest)

instance noDDDecidable : ∀ l : List Char, Decidable (noDD l)
  | [] => .isTrue trivial
  | [_] => .isTrue trivial
  | _ :: b :: rest =>
    haveI : Decidable (noDD (b :: rest)) := noDDDecidable (b :: rest)
    inferInstanceAs (Decidable (_ ∧ _))

theorem noDD_tail {a : Char} {t : List Char} (h : noDD (a :: t)) :
    noDD t := by
  cases t with
  | nil => trivial
  | cons b r => exact h.2

theorem noDD_cons {a : Char} {t : List Char} (ht : noDD t)
    (hrel : ∀ h, t.head? = some h → ¬(a = '-' ∧ h = '-')) :
    noDD (a :: t) := by
  cases t with
  | nil => trivial
  | cons b r => exact ⟨hrel b rfl, ht⟩

theorem noDD_head {a b : Char} {t : List Char} (h : noDD (a :: t))
    (hb : t.head? = some b) : ¬(a = '-' ∧ b = '-') := by
  cases t with
  | nil => cases hb
  | cons c r =>
    obtain rfl := Option.some.inj hb
    exact h.1

mutual

theorem goodChars_collapseRuns :
    ∀ (l : List Char) (c : Char), c ∈ collapseRuns l →
      isKeepChar c = true ∨ c = '-'
  | [] => by intro c hc; rw [collapseRuns] at hc; cases hc
  | x :: xs => by
    intro c hc
    rw [collapseRuns] at hc
    by_cases hx : isKeepChar x
    · rw [if_pos hx] at hc
      rcases List.mem_cons.mp hc with rfl | hc
      · exact Or.inl hx
      · exact goodChars_collapseRuns xs c hc
    · rw [if_neg hx] at hc
      rcases List.mem_cons.mp hc with rfl | hc
      · exact Or.inr rfl
      · exact goodChars_skipRun xs c hc

theorem goodChars_skipRun :
    ∀ (l : List Char) (c : Char), c ∈ skipRun l →
      isKeepChar c = true ∨ c = '-'
  | [] => by intro c hc; rw [skipRun] at hc; cases hc
  | x :: xs => by
    intro c hc
    rw [skipRun] at hc
    by_cases hx : isKeepChar x
    · rw [if_pos hx] at hc
      rcases List.mem_cons.mp hc with rfl | hc
      · exact Or.inl hx
      · exact goodChars_collapseRuns xs c hc
    · rw [if_neg hx] at hc
      exact goodChars_skipRun xs c hc

end

theorem skipRun_head : ∀ l : List Char, skipRun l = [] ∨
    ∃ c cs, skipRun l = c :: cs ∧ isKeepChar c = true
  | [] => Or.inl rfl
  | x :: xs => by
    rw [skipRun]
    by_cases hx : isKeepChar x
    · rw [if_pos hx]
      exact Or.inr ⟨x, _, rfl, hx⟩
    · rw [if_neg hx]
      exact skipRun_head xs

mutual

theorem noDD_collapseRuns : ∀ l : List Char, noDD (collapseRuns l)
  | [] => by rw [collapseRuns]; trivial
  | x :: xs => by
    rw [collapseRuns]
    by_cases hx : isKeepChar x
    · rw [if_pos hx]
      refine noDD_cons (noDD_collapseRuns xs) ?_
      intro h _ hand
      rw [hand.1] at hx
      exact absurd hx (by decide)
    · rw [if_neg hx]
      refine noDD_cons (noDD_skipRun xs) ?_
      intro h hh hand
      rcases skipRun_head xs with hs | ⟨c, cs, hs, hc⟩
      · rw [hs] at hh; cases hh
      · rw [hs] at hh
        obtain rfl := Option.some.inj hh
        rw [hand.2] at hc
        exact absurd hc (by decide)

theorem noDD_skipRun : ∀ l : List Char, noDD (skipRun l)
  | [] => by rw [skipRun]; trivial
  | x :: xs => by
    rw [skipRun]
    by_cases hx : isKeepChar x
    · rw [if_pos hx]
      refine noDD_cons (noDD_collapseRuns xs) ?_
      intro h _ hand
      rw [hand.1] at hx
      exact absurd hx (by decide)
    · rw [if_neg hx]
      exact noDD_skipRun xs

end

theorem collapseRuns_fix :
    ∀ l : List Char, (∀ c ∈ l, isKeepChar c = true ∨ c = '-') → noDD l →
      collapseRuns l = l
  | [] => fun _ _ => rfl
  | [a] => by
    intro hg _
    rw [collapseRuns]
    rcases hg a (List.mem_singleton.mpr rfl) with h | rfl
    · rw [if_pos h, collapseRuns]
    · rfl
  | a :: b :: rest => by
    intro hg hdd
    rw [collapseRuns]
    rcases hg a (List.mem_cons_self a (b :: rest)) with ha | rfl
    · rw [if_pos ha]
      congr 1
      exact collapseRuns_fix (b :: rest)
        (fun c hc => hg c (List.mem_cons_of_mem a hc)) (noDD_tail hdd)
    · rw [if_neg (by decide)]
      have hb : isKeepChar b = true := by
        rcases hg b (List.mem_cons_of_mem _
          (List.mem_cons_self b rest)) with h | rfl
        · exact h
        · exact absurd ⟨rfl, rfl⟩ hdd.1
      rw [skipRun, if_pos hb]
      congr 2
      exact collapseRuns_fix rest
        (fun c hc => hg c (List.mem_cons_of_mem _ (List.mem_cons_of_mem _ hc)))
        (noDD_tail (noDD_tail hdd))

theorem noDD_dropWhile {p : Char → Bool} :
    ∀ l : List Char, noDD l → noDD (l.dropWhile p)
  | [] => fun h => h
  | a :: as => fun h => by
    rw [List.dropWhile_cons]
    by_cases ha : p a
    · rw [if_pos ha]
      exact noDD_dropWhile as (noDD_tail h)
    · rw [if_neg ha]
      exact h

theorem head?_take {l : List Char} {n : Nat} {c : Char}
    (h : (l.take n).head? = some c) : l.head? = some c := by
  cases l with
  | nil => simp at h
  | cons a as =>
    cases n with
    | zero => simp at h
    | succ m => simpa using h

theorem head?_take_pos {l : List Char} {n : Nat} (hn : 0 < n) :
    (l.take n).head? = l.head? := by
  cases l with
  | nil => simp
  | cons a as =>
    cases n with
    | zero => exact absurd hn (by decide)
    | succ m => simp

theorem noDD_take : ∀ (l : List Char) (n : Nat), noDD l → noDD (l.take n)
  | [], n => fun _ => by simp [noDD]
  | a :: as, 0 => fun _ => by simp [noDD]
  | a :: as, n + 1 => fun h => by
    rw [List.take_succ_cons]
    refine noDD_cons (noDD_take as n (noDD_tail h)) ?_
    intro c hc
    exact noDD_head h (head?_take hc)

theorem dropTrailing_isPrefixTake :
    ∀ l : List Char, ∃ k, dropTrailingHyphens l = l.take k
  | [] => ⟨0, rfl⟩
  | c :: cs => by
    obtain ⟨k, hk⟩ := dropTrailing_isPrefixTake cs
    cases hdt : dropTrailingHyphens cs with
    | nil =>
      by_cases hc : c = '-'
      · exact ⟨0, by rw [dropTrailingHyphens, hdt]; simp [hc]⟩
      · exact ⟨1, by rw [dropTrailingHyphens, hdt]; simp [hc]⟩
    | cons d ds =>
      refine ⟨k + 1, ?_⟩
      have hstep : dropTrailingHyphens (c :: cs) =
          c :: dropTrailingHyphens cs := by
        rw [dropTrailingHyphens, hdt]
      rw [hstep, hk, List.take_succ_cons]

theorem dropTrailing_eq_self :
    ∀ l : List Char, l.reverse.head? ≠ some '-' → dropTrailingHyphens l = l
  | [] => fun _ => rfl
  | c :: cs => fun h => by
    by_cases hcs : cs = []
    · subst hcs
      have hc : ¬ c = '-' := fun hc => h (by rw [hc]; rfl)
      simp [dropTrailingHyphens, hc]
    · have h' : cs.reverse.head? ≠ some '-' := by
        rw [List.reverse_cons] at h
        cases hcr : cs.reverse with
        | nil => exact absurd (List.reverse_eq_nil_iff.mp hcr) hcs
        | cons r rs =>
          rw [hcr] at h
          simpa using h
      have ih := dropTrailing_eq_self cs h'
      rw [dropTrailingHyphens, ih]
      cases hcs' : cs with
      | nil => exact absurd hcs' hcs
      | cons d ds => rfl

theorem head?_dropWhileHyphen_ne :
    ∀ (l : List Char) (c : Char),
      ((l.dropWhile fun c => c = '-').head? = some c) → ¬ c = '-'
  | [] => by intro c h; simp at h
  | a :: as => by
    intro c h
    rw [List.dropWhile_cons] at h
    by_cases ha : a = '-'
    · rw [if_pos (by simp [ha])] at h
      exact head?_dropWhileHyphen_ne as c h
    · rw [if_neg (by simp [ha])] at h
      obtain rfl := Option.some.inj h
      exact ha

theorem dropWhileHyphen_eq_self {l : List Char}
    (h : l.head? ≠ some '-') : (l.dropWhile fun c => c = '-') = l := by
  cases l with
  | nil => rfl
  | cons a as =>
    have ha : ¬ a = '-' := fun hc => h (by rw [hc]; rfl)
    rw [List.dropWhile_cons, if_neg (by simp [ha])]

theorem map_toLower_fix :
    ∀ l : List Char, (∀ c ∈ l, isKeepChar c = true ∨ c = '-') →
      l.map Char.toLower = l
  | [] => fun _ => rfl
  | a :: as => fun h => by
    rw [List.map_cons]
    have ha : a.toLower = a := by
      have hn : ¬(a.toNat ≥ 65 ∧ a.toNat ≤ 90) := by
        rcases h a (List.mem_cons_self a as) with hk | rfl
        · simp only [isKeepChar, Bool.or_eq_true, Bool.and_eq_true,
            decide_eq_true_eq] at hk
          rcases hk with ⟨h1, h2⟩ | ⟨h1, h2⟩
          · have ha' : (97 : Nat) ≤ a.toNat := by
              have := Char.le_def.mp h1
              rw [UInt32.le_def] at this
              exact this
            omega
          · have hb' : a.toNat ≤ 57 := by
              have := Char.le_def.mp h2
              rw [UInt32.le_def] at this
              exact this
            omega
        · decide
      simp only [Char.toLower]
      rw [if_neg hn]
    rw [ha]
    congr 1
    exact map_toLower_fix as fun c hc => h c (List.mem_cons_of_mem a hc)

theorem sanitizeCore_facts (l : List Char) :
    (∀ c ∈ sanitizeCore l, isKeepChar c = true ∨ c = '-') ∧
    noDD (sanitizeCore l) ∧
    sanitizeCore l ≠ [] ∧
    (sanitizeCore l).head? ≠ some '-' ∧
    (sanitizeCore l).length ≤ 50 := by
  unfold sanitizeCore
  dsimp only
  obtain ⟨k, hk⟩ :=
    dropTrailing_isPrefixTake ((collapseRuns l).dropWhile fun c => c = '-')
  have hgood_tr : ∀ c ∈ dropTrailingHyphens
      ((collapseRuns l).dropWhile fun c => c = '-'),
      isKeepChar c = true ∨ c = '-' := by
    intro c hc
    rw [hk] at hc
    have h1 := List.take_subset k _ hc
    have hsub : ((collapseRuns l).dropWhile fun c => c = '-').Sublist
        (collapseRuns l) := List.dropWhile_sublist _
    have h2 := hsub.subset h1
    exact goodChars_collapseRuns l c h2
  have hdd_tr : noDD (dropTrailingHyphens
      ((collapseRuns l).dropWhile fun c => c = '-')) := by
    rw [hk]
    exact noDD_take _ k (noDD_dropWhile _ (noDD_collapseRuns l))
  have hhead_tr : ∀ c, (dropTrailingHyphens
      ((collapseRuns l).dropWhile fun c => c = '-')).head? = some c →
      ¬ c = '-' := by
    intro c hc
    rw [hk] at hc
    exact head?_dropWhileHyphen_ne (collapseRuns l) c (head?_take hc)
  by_cases htrim : dropTrailingHyphens
      ((collapseRuns l).dropWhile fun c => c = '-') = []
  · rw [if_pos htrim, if_neg (by decide)]
    exact ⟨by decide, by decide, by decide, by decide, by decide⟩
  · rw [if_neg htrim]
    by_cases hlen : (dropTrailingHyphens
        ((collapseRuns l).dropWhile fun c => c = '-')).length > 50
    · rw [if_pos hlen]
      refine ⟨?_, noDD_take _ _ hdd_tr, ?_, ?_, ?_⟩
      · intro c hc
        exact hgood_tr c (List.take_subset _ _ hc)
      · intro hnil
        have hlnil := congrArg List.length hnil
        simp only [List.length_take, List.length_nil] at hlnil
        omega
      · rw [head?_take_pos (by decide)]
        intro hc
        exact hhead_tr '-' hc rfl
      · simp only [List.length_take]
        omega
    · rw [if_neg hlen]
      refine ⟨hgood_tr, hdd_tr, htrim, ?_, by omega⟩
      intro hc
      exact hhead_tr '-' hc rfl

theorem sanitizeCore_fix {y : List Char}
    (hgood : ∀ c ∈ y, isKeepChar c = true ∨ c = '-')
    (hdd : noDD y) (hne : y ≠ []) (hhead : y.head? ≠ some '-')
    (hlast : y.reverse.head? ≠ some '-') (hlen : y.length ≤ 50) :
    sanitizeCore y = y := by
  unfold sanitizeCore
  dsimp only
  rw [collapseRuns_fix y hgood hdd, dropWhileHyphen_eq_self hhead,
    dropTrailing_eq_self y hlast, if_neg hne, if_neg (by omega)]

theorem reverse_head_ne_of_goEndsWith_false {y : String}
    (h : goEndsWith y "-" = false) : y.data.reverse.head? ≠ some '-' := by
  unfold goEndsWith at h
  cases hr : y.data.reverse with
  | nil => simp
  | cons b bs =>
    rw [hr] at h
    intro hh
    obtain rfl := Option.some.inj hh
    simp [hasPfx] at h

/-- C9 counterexample: `SanitizeName` is not idempotent.  On an input of
49 `a`s followed by `-bb`, sanitising leaves 52 characters and the final
truncation to 50 cuts right after the hyphen, so the result ends in `-`;
a second application trims that hyphen away, giving a different string. -/
theorem c9_counterexample :
    goEndsWith (sanitizeName
      "aaaaaaaaaaaaaaaaaaaaaaaaaaaaaaaaaaaaaaaaaaaaaaaaa-bb") "-" = true ∧
    sanitizeName (sanitizeName
      "aaaaaaaaaaaaaaaaaaaaaaaaaaaaaaaaaaaaaaaaaaaaaaaaa-bb") ≠
      sanitizeName
        "aaaaaaaaaaaaaaaaaaaaaaaaaaaaaaaaaaaaaaaaaaaaaaaaa-bb" := by
  refine ⟨by decide, by decide⟩

/-- C9 (amended): `SanitizeName` is idempotent on every input whose
sanitised form does not end in a hyphen; only the 50-character truncation
can produce a trailing hyphen, which a second application removes. -/
theorem c9_sanitize_idempotent (n : String)
    (h : goEndsWith (sanitizeName n) "-" = false) :
    sanitizeName (sanitizeName n) = sanitizeName n := by
  obtain ⟨hgood, hdd, hne, hhead, hlen⟩ := sanitizeCore_facts (goToLower n).data
  have hlast : (sanitizeCore (goToLower n).data).reverse.head? ≠ some '-' :=
    reverse_head_ne_of_goEndsWith_false h
  show (⟨sanitizeCore (goToLower
    (⟨sanitizeCore (goToLower n).data⟩ : String)).data⟩ : String) =
    ⟨sanitizeCore (goToLower n).data⟩
  have hlow : (goToLower (⟨sanitizeCore (goToLower n).data⟩ : String)).data =
      sanitizeCore (goToLower n).data :=
    map_toLower_fix _ hgood
  rw [hlow, sanitizeCore_fix hgood hdd hne hhead hlast hlen]

/-- C9 witness: a name with punctuation and upper case sanitises to
`my-app`, on which sanitisation is idempotent. -/
theorem c9_sanitize_idempotent_witness :
    sanitizeName (sanitizeName "My App!") = sanitizeName "My App!" :=
  c9_sanitize_idempotent "My App!" (by decide)

/-! ## SHA-256 (Go `crypto/sha256`, as used by `computeHash` and
`ComputeIdentityHash` in `names.go`)

A direct executable implementation over `Nat` with explicit `% 2^32`
masking; words and digests are lists of `Nat`.  Validated against the
standard test vectors (the digest of `"abc"` appears below as an
example). -/

/-- Truncation to 32 bits. -/
def m32 (x : Nat) : Nat := x % 4294967296

/-- 32-bit rotate right. -/
def rotr (n x : Nat) : Nat := m32 ((x >>> n) ||| (x <<< (32 - n)))

/-- The 64 SHA-256 round constants. -/
def shaK : List Nat :=
  [1116352408, 1899447441, 3049323471, 3921009573, 961987163, 1508970993,
    2453635748, 2870763221, 3624381080, 310598401, 607225278, 1426881987,
    1925078388, 2162078206, 2614888103, 3248222580, 3835390401, 4022224774,
    264347078, 604807628, 770255983, 1249150122, 1555081692, 1996064986,
    2554220882, 2821834349, 2952996808, 3210313671, 3336571891, 3584528711,
    113926993, 338241895, 666307205, 773529912, 1294757372, 1396182291,
    1695183700, 1986661051, 2177026350, 2456956037, 2730485921, 2820302411,
    3259730800, 3345764771, 3516065817, 3600352804, 4094571909, 275423344,
    430227734, 506948616, 659060556, 883997877, 958139571, 1322822218,
    1537002063, 1747873779, 1955562222, 2024104815, 2227730452, 2361852424,
    2428436474, 2756734187, 3204031479, 3329325298]

/-- The SHA-256 initial hash value. -/
def shaH0 : List Nat :=
  [1779033703, 3144134277, 1013904242, 2773480762, 1359893119, 2600822924,
    528734635, 1541459225]

def shaCh (x y z : Nat) : Nat :=
  Nat.xor (x &&& y) ((Nat.xor x 4294967295) &&& z)

def shaMaj (x y z : Nat) : Nat :=
  Nat.xor (Nat.xor (x &&& y) (x &&& z)) (y &&& z)

def bigSigma0 (x : Nat) : Nat :=
  Nat.xor (Nat.xor (rotr 2 x) (rotr 13 x)) (rotr 22 x)

def bigSigma1 (x : Nat) : Nat :=
  Nat.xor (Nat.xor (rotr 6 x) (rotr 11 x)) (rotr 25 x)

def smallSigma0 (x : Nat) : Nat :=
  Nat.xor (Nat.xor (rotr 7 x) (rotr 18 x)) (x >>> 3)

def smallSigma1 (x : Nat) : Nat :=
  Nat.xor (Nat.xor (rotr 17 x) (rotr 19 x)) (x >>> 10)

/-- Append the next word of the message schedule. -/
def scheduleStep (w : List Nat) : List Nat :=
  let t := w.length
  w ++ [m32 (smallSigma1 (w.getD (t - 2) 0) + w.getD (t - 7) 0 +
    smallSigma0 (w.getD (t - 15) 0) + w.getD (t - 16) 0)]

/-- Extend a 16-word block by `n` schedule words. -/
def buildSchedule (w : List Nat) : Nat → List Nat
  | 0 => w
  | n + 1 => buildSchedule (scheduleStep w) n

/-- One SHA-256 round on the 8-word working state. -/
def shaRound (st : List Nat) (kw : Nat × Nat) : List Nat :=
  match st with
  | [a, b, c, d, e, f, g, h] =>
    let t1 := m32 (h + bigSigma1 e + shaCh e f g + kw.1 + kw.2)
    let t2 := m32 (bigSigma0 a + shaMaj a b c)
    [m32 (t1 + t2), a, b, c, m32 (d + t1), e, f, g]
  | _ => st

/-- Compress one 16-word block into the hash state. -/
def compressBlock (h : List Nat) (block : List Nat) : List Nat :=
  let w := buildSchedule block 48
  let st := (shaK.zip w).foldl shaRound h
  (h.zip st).map fun p => m32 (p.1 + p.2)

/-- Big-endian 4-byte groups to 32-bit words. -/
def bytesToWords : List Nat → List Nat
  | b0 :: b1 :: b2 :: b3 :: rest =>
    (b0 * 16777216 + b1 * 65536 + b2 * 256 + b3) :: bytesToWords rest
  | _ => []

/-- Split a padded byte list into 16-word blocks (fuel-driven so that the
kernel can evaluate it). -/
def toBlocksFuel : Nat → List Nat → List (List Nat)
  | 0, _ => []
  | _ + 1, [] => []
  | n + 1, l => bytesToWords (l.take 64) :: toBlocksFuel n (l.drop 64)

/-- 8-byte big-endian encoding of the bit length. -/
def beBytes8 (n : Nat) : List Nat :=
  (List.range 8).map fun i => (n >>> ((7 - i) * 8)) % 256

/-- SHA-256 message padding. -/
def padMessage (msg : List Nat) : List Nat :=
  msg ++ [128] ++ List.replicate ((119 - msg.length % 64) % 64) 0 ++
    beBytes8 (msg.length * 8)

/-- SHA-256 of a byte list, as eight 32-bit words. -/
def sha256Words (msg : List Nat) : List Nat :=
  let padded := padMessage msg
  (toBlocksFuel padded.length padded).foldl compressBlock shaH0

def hexDigit (n : Nat) : Char := "0123456789abcdef".data.getD n '0'

def wordHex (w : Nat) : List Char :=
  (List.range 8).map fun i => hexDigit ((w >>> ((7 - i) * 4)) % 16)

/-- Lower-case hex digest, as Go's `fmt.Sprintf("%x", h.Sum(nil))`. -/
def sha256Hex (msg : List Nat) : String :=
  ⟨((sha256Words msg).map wordHex).flatten⟩

/-- UTF-8 encoding of one character (Go `[]byte(string)`). -/
def charUtf8 (c : Char) : List Nat :=
  let n := c.toNat
  if n < 128 then [n]
  else if n < 2048 then [192 + n / 64, 128 + n % 64]
  else if n < 65536 then
    [224 + n / 4096, 128 + (n / 64) % 64, 128 + n % 64]
  else
    [240 + n / 262144, 128 + (n / 4096) % 64, 128 + (n / 64) % 64,
      128 + n % 64]

/-- UTF-8 bytes of a string. -/
def utf8Bytes (s : String) : List Nat := (s.data.map charUtf8).flatten

/-- Standard test vector: the implementation agrees with SHA-256 on
`"abc"`. -/
example : sha256Hex (utf8Bytes "abc") =
    "ba7816bf8f01cfea414140de5dae2223b00361a396177a9cb410ff61f20015ad" := by
  decide

/-- `naming.computeHash` (`names.go` lines 249-253): SHA-256 of the
executable path alone. -/
def computeHash (exePath : String) : String := sha256Hex (utf8Bytes exePath)

/-- `naming.ComputeIdentityHash` (`names.go` lines 257-266): SHA-256 of
the executable path and every argument, each followed by a NUL byte. -/
def computeIdentityHash (exePath : String) (args : List String) : String :=
  sha256Hex (utf8Bytes exePath ++ [0] ++
    (args.map fun a => utf8Bytes a ++ [0]).flatten)

/-! ## Name generation (`Generator.GenerateName`, `names.go` lines
181-214)

The generator's `usedNames` map is a `String → Bool`; the base-name
computation (rule engine match with heuristic fallback, lines 183-191) is
supplied as the already-extracted `baseName` argument, and the function
embeds the sanitisation, collision loop and hash fallback that follow. -/

/-- The collision loop `for i := 1; i < 1000; i++` searching the first
free numbered candidate, with explicit fuel (`999` iterations). -/
def findCandidate (used : String → Bool) (cleaned : String) :
    Nat → Nat → Option String
  | 0, _ => none
  | fuel + 1, i =>
    if i < 1000 then
      let cand := cleaned ++ "-" ++ toString i
      if !used cand then some cand
      else findCandidate used cleaned fuel (i + 1)
    else none

/-- `Generator.GenerateName` from the sanitisation step on: try the base,
then `base-1` … `base-999`, then fall back to the first 8 hex digits of
`computeHash(exePath)`; the first two register the chosen name in the
used-name map, the fallback does not. -/
def generateNameCore (used : String → Bool) (baseName exePath : String) :
    String × (String → Bool) :=
  let cleaned := sanitizeName baseName
  if !used cleaned then
    (cleaned ++ ".localhost", fun s => if s == cleaned then true else used s)
  else
    match findCandidate used cleaned 999 1 with
    | some cand =>
      (cand ++ ".localhost", fun s => if s == cand then true else used s)
    | none =>
      let hash := computeHash exePath
      let shortHash := goTake hash 8
      (cleaned ++ "-" ++ shortHash ++ ".localhost", used)

theorem findCandidate_eq_some (used : String → Bool) (cleaned : String) :
    ∀ (fuel i k : Nat), i + fuel = 1000 → i ≤ k → k ≤ 999 →
      used (cleaned ++ "-" ++ toString k) = false →
      (∀ j, i ≤ j → j < k → used (cleaned ++ "-" ++ toString j) = true) →
      findCandidate used cleaned fuel i =
        some (cleaned ++ "-" ++ toString k)
  | 0, i, k => by
    intro h0 h1 h2 _ _
    omega
  | fuel + 1, i, k => by
    intro hsum hik hk hkfree hbelow
    rw [findCandidate, if_pos (show i < 1000 by omega)]
    dsimp only
    by_cases hui : used (cleaned ++ "-" ++ toString i) = false
    · have hik2 : i = k := by
        by_contra hne
        have := hbelow i le_rfl (lt_of_le_of_ne hik hne)
        rw [this] at hui
        cases hui
      subst hik2
      rw [hui]
      simp
    · have hui' : used (cleaned ++ "-" ++ toString i) = true := by
        revert hui
        cases used (cleaned ++ "-" ++ toString i) <;> simp
      have hik' : i < k := by
        rcases lt_or_eq_of_le hik with h | h
        · exact h
        · rw [h] at hui'
          rw [hkfree] at hui'
          cases hui'
      rw [hui']
      simp only [Bool.not_true, Bool.false_eq_true, if_false]
      exact findCandidate_eq_some used cleaned fuel (i + 1) k (by omega)
        (by omega) hk hkfree fun j hj hjk => hbelow j (by omega) hjk

theorem findCandidate_eq_none (used : String → Bool) (cleaned : String) :
    ∀ (fuel i : Nat), i + fuel = 1000 →
      (∀ j, i ≤ j → j ≤ 999 → used (cleaned ++ "-" ++ toString j) = true) →
      findCandidate used cleaned fuel i = none
  | 0, _ => fun _ _ => rfl
  | fuel + 1, i => by
    intro hsum hall
    rw [findCandidate, if_pos (show i < 1000 by omega)]
    dsimp only
    rw [hall i le_rfl (by omega)]
    simp only [Bool.not_true, Bool.false_eq_true, if_false]
    exact findCandidate_eq_none used cleaned fuel (i + 1) (by omega)
      fun j hj hj9 => hall j (by omega) hj9

/-- The used-name set of the C8 counterexample: the base `app` and every
numbered candidate `app-1` … `app-999` are taken (names of at most 7
characters whose tail after `app-` is numeric), so the hash fallback
fires. -/
def c8UsedSet : String → Bool := fun s =>
  s == "app" || (goStartsWith s "app-" && (goDrop s 4).data.all Char.isDigit
    && decide (s.length ≤ 7))

set_option maxRecDepth 10000 in
/-- C8 counterexample: with `app` and `app-1` … `app-999` all taken, the
fallback name is built from the first 8 hex digits of
`computeHash(exePath)` — the SHA-256 of the executable path alone, which
differs from the identity hash (`ComputeIdentityHash`, which also covers
the NUL-separated argv) already in its first 8 digits — and the returned
name is NOT registered in the used-name set. -/
theorem c8_counterexample :
    (generateNameCore c8UsedSet "app" "/usr/local/bin/server").1 =
      "app-8294fc4e.localhost" ∧
    (generateNameCore c8UsedSet "app" "/usr/local/bin/server").2
      "app-8294fc4e" = false ∧
    goTake (computeHash "/usr/local/bin/server") 8 = "8294fc4e" ∧
    goTake (computeIdentityHash "/usr/local/bin/server" []) 8 = "d7743924" := by
  refine ⟨by decide, by decide, by decide, by decide⟩

/-- C8 (amended): `GenerateName` returns `base.localhost` (registering
the sanitised base) when it is unused; otherwise `base-k.localhost`
(registered) for the smallest `1 ≤ k ≤ 999` whose candidate is unused;
and when all those are taken it returns the base followed by `-` and the
first 8 hex digits of the SHA-256 of the executable path alone (not the
identity hash), WITHOUT registering that name in the used-name set. -/
theorem c8_generateName_characterisation (used : String → Bool)
    (base exe : String) :
    (used (sanitizeName base) = false →
      generateNameCore used base exe =
        (sanitizeName base ++ ".localhost",
          fun s => if s == sanitizeName base then true else used s)) ∧
    (∀ k, used (sanitizeName base) = true → 1 ≤ k → k ≤ 999 →
      used (sanitizeName base ++ "-" ++ toString k) = false →
      (∀ j, 1 ≤ j → j < k →
        used (sanitizeName base ++ "-" ++ toString j) = true) →
      generateNameCore used base exe =
        (sanitizeName base ++ "-" ++ toString k ++ ".localhost",
          fun s => if s == sanitizeName base ++ "-" ++ toString k then true
            else used s)) ∧
    (used (sanitizeName base) = true →
      (∀ j, 1 ≤ j → j ≤ 999 →
        used (sanitizeName base ++ "-" ++ toString j) = true) →
      generateNameCore used base exe =
        (sanitizeName base ++ "-" ++ goTake (computeHash exe) 8 ++
          ".localhost", used)) := by
  refine ⟨?_, ?_, ?_⟩
  · intro h
    unfold generateNameCore
    dsimp only
    rw [h]
    simp
  · intro k h1 hk1 hk9 hkfree hbelow
    unfold generateNameCore
    dsimp only
    rw [h1]
    simp only [Bool.not_true, Bool.false_eq_true, if_false]
    rw [findCandidate_eq_some used (sanitizeName base) 999 1 k (by omega)
      hk1 hk9 hkfree fun j hj hjk => hbelow j hj hjk]
  · intro h1 hall
    unfold generateNameCore
    dsimp only
    rw [h1]
    simp only [Bool.not_true, Bool.false_eq_true, if_false]
    rw [findCandidate_eq_none used (sanitizeName base) 999 1 (by omega)
      fun j hj hj9 => hall j hj hj9]

/-- C8 witness: with only `app` taken, the generator allocates
`app-1.localhost` (the smallest free numbered candidate). -/
theorem c8_generateName_characterisation_witness :
    (generateNameCore (fun s => s == "app") "app" "/x").1 =
      "app-1.localhost" := by
  have h := (c8_generateName_characterisation (fun s => s == "app")
      "app" "/x").2.1 1 (by decide) (by decide) (by decide) (by decide)
    (fun j hj hjk => absurd (lt_of_le_of_lt hj hjk) (lt_irrefl 1))
  rw [congrArg Prod.fst h]
  decide

end Nameport
